import Mathlib

/-!
Verification of the metadata dump/load layer (`pkg/meta/dump.go`):
the percent-hex escaping codec (`escape` / `parseHex` / `unescape`),
the streaming JSON entry writer (`DumpedEntry.writeJSON`), and the
hardlink-resolving collector (`collectEntry`).

Modelling conventions:
* A Go `string` / `[]byte` is a list of byte values (`GoStr := List Nat`);
  Go strings are arbitrary byte sequences, so Lean `String` cannot model them.
* Go's `for i, r := range s` decodes UTF-8 exactly like `utf8.DecodeRuneInString`:
  a valid sequence yields its rune and width, anything invalid yields
  `utf8.RuneError` (= U+FFFD) with width 1.  `escape` below reproduces that
  decoding case by case; every recursive call is on a structural suffix.
* The `entries map[Ino]*DumpedEntry` is modelled as `Ino → Option DumpedEntry`;
  Go mutates records in place through pointers stored in the map, which the
  model reproduces by explicit map updates at the same program points.
* `showProgress` is modelled as two accumulating counters in the state
  (the case `showProgress == nil` merely drops those increments).
-/

/-- Byte string: the model of a Go `string` or `[]byte`. -/
abbrev GoStr : Type := List Nat

/-- Bytes of an ASCII Lean string literal; used for the fixed textual
fragments of the Go source (all of which are ASCII). -/
def ascii (s : String) : GoStr := s.toList.map Char.toNat

/-- Model of `var CHARS = []byte("0123456789ABCDEF")` from dump.go. -/
def CHARS : GoStr := ascii ("0123456789ABCDEF")

/-- Indexing into `CHARS` (Go `CHARS[i]`, always in range here). -/
def hexAt (i : Nat) : Nat := List.getD CHARS i 0

/-- The escape condition from dump.go line 105:
`r == utf8.RuneError || r < 32 || r == '%' || r == '"' || r == '\\'`
(0xFFFD is `utf8.RuneError`, 37 is `'%'`, 34 is `'"'`, 92 is `'\\'`). -/
def escCond (r : Nat) : Bool :=
  decide (r = 0xFFFD ∨ r < 32 ∨ r = 37 ∨ r = 34 ∨ r = 92)

/-- The three-byte escape emitted for one escaped byte (dump.go 112-118):
`c := byte(r)`, but the raw source byte when `r == utf8.RuneError`; then
`'%'`, `CHARS[(c>>4)&0xF]`, `CHARS[c&0xF]`. -/
def escByte (r b0 : Nat) : GoStr :=
  let c := if r = 0xFFFD then b0 else r % 256
  [37, hexAt ((c >>> 4) &&& 0xF), hexAt (c &&& 0xF)]

/-- Model of `escape` (dump.go 101-128).  The Go loop ranges over the string
rune by rune; each case below is one outcome of `utf8.DecodeRuneInString`
(the four valid length classes with Go's accept ranges, everything else
being `RuneError` of width 1).  In this revision of the source `escValue`
starts non-nil, so the function always rebuilds the buffer: bytes of runes
that do not satisfy `escCond` are copied verbatim (`original[i:i+n]`),
escaped bytes become `escByte`.  The `escValue == nil` fast path of the
original upstream code is dead here and has no observable effect. -/
def escape : GoStr → GoStr
  | [] => []
  | b0 :: rest =>
    if b0 < 0x80 then
      -- 1-byte rune, r = b0
      (if escCond b0 then escByte b0 b0 else [b0]) ++ escape rest
    else if 0xC2 ≤ b0 ∧ b0 ≤ 0xDF then
      match rest with
      | b1 :: rest1 =>
        if 0x80 ≤ b1 ∧ b1 ≤ 0xBF then
          let r := ((b0 &&& 0x1F) <<< 6) ||| (b1 &&& 0x3F)
          (if escCond r then escByte r b0 else [b0, b1]) ++ escape rest1
        else escByte 0xFFFD b0 ++ escape (b1 :: rest1)
      | [] => escByte 0xFFFD b0 ++ escape []
    else if 0xE0 ≤ b0 ∧ b0 ≤ 0xEF then
      match rest with
      | b1 :: b2 :: rest2 =>
        if (if b0 = 0xE0 then 0xA0 ≤ b1 ∧ b1 ≤ 0xBF
            else if b0 = 0xED then 0x80 ≤ b1 ∧ b1 ≤ 0x9F
            else 0x80 ≤ b1 ∧ b1 ≤ 0xBF) ∧ 0x80 ≤ b2 ∧ b2 ≤ 0xBF then
          let r := ((b0 &&& 0x0F) <<< 12) ||| ((b1 &&& 0x3F) <<< 6) ||| (b2 &&& 0x3F)
          (if escCond r then escByte r b0 else [b0, b1, b2]) ++ escape rest2
        else escByte 0xFFFD b0 ++ escape (b1 :: b2 :: rest2)
      | [b1] => escByte 0xFFFD b0 ++ escape [b1]
      | [] => escByte 0xFFFD b0 ++ escape []
    else if 0xF0 ≤ b0 ∧ b0 ≤ 0xF4 then
      match rest with
      | b1 :: b2 :: b3 :: rest3 =>
        if (if b0 = 0xF0 then 0x90 ≤ b1 ∧ b1 ≤ 0xBF
            else if b0 = 0xF4 then 0x80 ≤ b1 ∧ b1 ≤ 0x8F
            else 0x80 ≤ b1 ∧ b1 ≤ 0xBF) ∧ (0x80 ≤ b2 ∧ b2 ≤ 0xBF) ∧ 0x80 ≤ b3 ∧ b3 ≤ 0xBF then
          let r := ((b0 &&& 0x07) <<< 18) ||| ((b1 &&& 0x3F) <<< 12) |||
                   ((b2 &&& 0x3F) <<< 6) ||| (b3 &&& 0x3F)
          (if escCond r then escByte r b0 else [b0, b1, b2, b3]) ++ escape rest3
        else escByte 0xFFFD b0 ++ escape (b1 :: b2 :: b3 :: rest3)
      | [b1, b2] => escByte 0xFFFD b0 ++ escape [b1, b2]
      | [b1] => escByte 0xFFFD b0 ++ escape [b1]
      | [] => escByte 0xFFFD b0 ++ escape []
    else escByte 0xFFFD b0 ++ escape rest

/-- Model of `parseHex` (dump.go 130-138): uppercase hex digit to value,
`none` for the error return. -/
def parseHex (c : Nat) : Option Nat :=
  if 48 ≤ c ∧ c ≤ 57 then some (c - 48)
  else if 65 ≤ c ∧ c ≤ 70 then some (10 + (c - 65))
  else none

/-- The scanning loop of `unescape` (dump.go 145-160): a `'%'` with at least
two following bytes that both parse as hex becomes one decoded byte
(`h*16+l`, advancing past all three), otherwise the byte is copied and the
scan advances one position. -/
def unescapeScan : GoStr → GoStr
  | [] => []
  | c :: rest =>
    if c = 37 then
      match rest with
      | a :: b :: rest2 =>
        match parseHex a, parseHex b with
        | some h, some l => (h * 16 + l) :: unescapeScan rest2
        | some _, none => c :: unescapeScan (a :: b :: rest2)
        | none, _ => c :: unescapeScan (a :: b :: rest2)
      | [a] => c :: unescapeScan [a]
      | [] => c :: unescapeScan []
    else c :: unescapeScan rest

/-- Model of `unescape` (dump.go 140-161): the input is returned unchanged
when it contains no `'%'`, otherwise it is scanned. -/
def unescape (s : GoStr) : GoStr :=
  if 37 ∈ s then unescapeScan s else s

/-- Inode identifier (Go `Ino` is `uint64`; only equality and the two
distinguished values 1 and `TrashInode` matter here). -/
abbrev Ino : Type := Nat

/-- Modelled from the spec: the root inode is 1 and there is a designated
trash-root inode distinct from it (`TrashInode` is declared outside the
given source file; the spec fixes no numeric value, only that it is a
distinguished directory inode different from the root). -/
def TrashInode : Ino := 0x7FFFFFFF00000000

/-- Modelled from the spec: the inode type tag (regular file, directory,
symlink, device, fifo, socket).  The Go code stores the tag as a string in
`DumpedAttr.Type` and converts with `typeFromString`/`typeToString`
(declared outside the given source file); the model carries the decoded
tag directly. -/
inductive FType : Type where
  | file
  | directory
  | symlink
  | device
  | fifo
  | socket
deriving DecidableEq, Repr

/-- Modelled from the spec: the wire spelling of a type tag (the inverse of
`typeFromString`); the exact words are irrelevant to every claim, only
that the mapping is injective. -/
def typeToString : FType → GoStr
  | .file => ascii ("regular")
  | .directory => ascii ("directory")
  | .symlink => ascii ("symlink")
  | .device => ascii ("device")
  | .fifo => ascii ("fifo")
  | .socket => ascii ("socket")

/-- Model of `DumpedAttr` (dump.go 54-69); integer widths are dropped,
with the one computation where int64 wrapping matters (the ctime
comparison) wrapped explicitly at its use site. -/
structure DumpedAttr : Type where
  inode : Ino
  typ : FType
  mode : Nat
  uid : Nat
  gid : Nat
  atime : Int
  mtime : Int
  ctime : Int
  atimensec : Nat
  mtimensec : Nat
  ctimensec : Nat
  nlink : Nat
  length : Nat
  rdev : Nat
deriving DecidableEq, Repr

/-- Model of `DumpedXattr` (dump.go 84-87). -/
structure DumpedXattr : Type where
  name : GoStr
  value : GoStr
deriving DecidableEq, Repr

/-- Model of `DumpedSlice` (dump.go 71-77). -/
structure DumpedSlice : Type where
  chunkid : Nat
  pos : Nat
  size : Nat
  off : Nat
  len : Nat
deriving DecidableEq, Repr

/-- Model of `DumpedChunk` (dump.go 79-82). -/
structure DumpedChunk : Type where
  index : Nat
  slices : List DumpedSlice
deriving DecidableEq, Repr

/-- Model of `DumpedEntry` (dump.go 89-97).  `Entries` maps child name to
child entry; Go iterates that map in unspecified order, which the model
fixes as the list order (the spec likewise treats child order as
caller-provided). -/
inductive DumpedEntry : Type where
  | mk : (name : GoStr) → (parents : List Ino) → (attr : Option DumpedAttr) →
      (symlink : GoStr) → (xattrs : List DumpedXattr) → (chunks : List DumpedChunk) →
      (entries : List (GoStr × DumpedEntry)) → DumpedEntry

/-- Field `Name`. -/
def DumpedEntry.name : DumpedEntry → GoStr
  | .mk nm _ _ _ _ _ _ => nm

/-- Field `Parents`. -/
def DumpedEntry.parents : DumpedEntry → List Ino
  | .mk _ ps _ _ _ _ _ => ps

/-- Field `Attr` (a possibly-nil pointer in Go). -/
def DumpedEntry.attr : DumpedEntry → Option DumpedAttr
  | .mk _ _ a _ _ _ _ => a

/-- Field `Symlink`. -/
def DumpedEntry.symlink : DumpedEntry → GoStr
  | .mk _ _ _ sy _ _ _ => sy

/-- Field `Xattrs`. -/
def DumpedEntry.xattrs : DumpedEntry → List DumpedXattr
  | .mk _ _ _ _ xs _ _ => xs

/-- Field `Chunks`. -/
def DumpedEntry.chunks : DumpedEntry → List DumpedChunk
  | .mk _ _ _ _ _ cs _ => cs

/-- Field `Entries`. -/
def DumpedEntry.entries : DumpedEntry → List (GoStr × DumpedEntry)
  | .mk _ _ _ _ _ _ es => es

/-- Decimal digits of a natural number (models Go's integer JSON
encoding); fuel-driven so that it is structural and kernel-reducible,
with fuel `n + 1`, always sufficient. -/
def natDecAux : Nat → Nat → GoStr
  | 0, _ => []
  | fuel + 1, n => if n < 10 then [48 + n] else natDecAux fuel (n / 10) ++ [48 + n % 10]

/-- Decimal form of a natural number. -/
def natDec (n : Nat) : GoStr := natDecAux (n + 1) n

/-- Decimal form of an integer (minus sign for negatives). -/
def intDec (i : Int) : GoStr :=
  if i < 0 then 45 :: natDec i.natAbs else natDec i.toNat

/-- Lowercase hex digits, as used by Go's JSON encoder for `\u00XX`. -/
def lhexAt (i : Nat) : Nat := List.getD (ascii ("0123456789abcdef")) i 0

/-- Byte-level model of how Go's `encoding/json` escapes one byte inside a
string literal (quote, backslash, control bytes, and the HTML-sensitive
`<` `>` `&`).  Go additionally treats invalid UTF-8 and U+2028/U+2029
rune-wise; no claim exercises those inputs, so the model stays
byte-level. -/
def goJsonByte (c : Nat) : GoStr :=
  if c = 34 then [92, 34]
  else if c = 92 then [92, 92]
  else if c = 10 then [92, 110]
  else if c = 13 then [92, 114]
  else if c = 9 then [92, 116]
  else if c < 32 then ascii ("\\u00") ++ [lhexAt (c >>> 4), lhexAt (c &&& 0xF)]
  else if c = 60 ∨ c = 62 ∨ c = 38 then ascii ("\\u00") ++ [lhexAt (c >>> 4), lhexAt (c &&& 0xF)]
  else [c]

/-- JSON string literal for a byte string (Go `encoding/json`). -/
def goJsonString (s : GoStr) : GoStr :=
  [34] ++ (s.map goJsonByte).flatten ++ [34]

/-- Comma-join, as produced by JSON array encoding. -/
def joinComma : List GoStr → GoStr
  | [] => []
  | [s] => s
  | s :: r :: rest => s ++ [44] ++ joinComma (r :: rest)

/-- `json.Marshal` of a `*DumpedAttr` (`null` for nil): field order and
`omitempty` tags as declared at dump.go 54-69 (`atimensec`, `mtimensec`,
`ctimensec`, `rdev` are omitted when zero; `length` is always present). -/
def marshalAttr : Option DumpedAttr → GoStr
  | none => ascii ("null")
  | some a =>
    ascii ("\x7b\"inode\":") ++ natDec a.inode ++
    ascii (",\"type\":") ++ goJsonString (typeToString a.typ) ++
    ascii (",\"mode\":") ++ natDec a.mode ++
    ascii (",\"uid\":") ++ natDec a.uid ++
    ascii (",\"gid\":") ++ natDec a.gid ++
    ascii (",\"atime\":") ++ intDec a.atime ++
    ascii (",\"mtime\":") ++ intDec a.mtime ++
    ascii (",\"ctime\":") ++ intDec a.ctime ++
    (if a.atimensec = 0 then [] else ascii (",\"atimensec\":") ++ natDec a.atimensec) ++
    (if a.mtimensec = 0 then [] else ascii (",\"mtimensec\":") ++ natDec a.mtimensec) ++
    (if a.ctimensec = 0 then [] else ascii (",\"ctimensec\":") ++ natDec a.ctimensec) ++
    ascii (",\"nlink\":") ++ natDec a.nlink ++
    ascii (",\"length\":") ++ natDec a.length ++
    (if a.rdev = 0 then [] else ascii (",\"rdev\":") ++ natDec a.rdev) ++
    ascii ("\x7d")

/-- `json.Marshal` of one `DumpedXattr` (dump.go 84-87). -/
def marshalXattr (x : DumpedXattr) : GoStr :=
  ascii ("\x7b\"name\":") ++ goJsonString x.name ++
  ascii (",\"value\":") ++ goJsonString x.value ++ ascii ("\x7d")

/-- `json.Marshal` of the xattr array (only called on non-empty input). -/
def marshalXattrs (xs : List DumpedXattr) : GoStr :=
  [91] ++ joinComma (xs.map marshalXattr) ++ [93]

/-- `json.Marshal` of one `DumpedSlice` (dump.go 71-77; `pos` and `off`
carry `omitempty`). -/
def marshalSlice (s : DumpedSlice) : GoStr :=
  ascii ("\x7b\"chunkid\":") ++ natDec s.chunkid ++
  (if s.pos = 0 then [] else ascii (",\"pos\":") ++ natDec s.pos) ++
  ascii (",\"size\":") ++ natDec s.size ++
  (if s.off = 0 then [] else ascii (",\"off\":") ++ natDec s.off) ++
  ascii (",\"len\":") ++ natDec s.len ++ ascii ("\x7d")

/-- `json.Marshal` of one `DumpedChunk` (an empty slice list models Go's
nil slice, which encodes as `null`). -/
def marshalChunk (c : DumpedChunk) : GoStr :=
  ascii ("\x7b\"index\":") ++ natDec c.index ++ ascii (",\"slices\":") ++
  (if c.slices = [] then ascii ("null")
   else [91] ++ joinComma (c.slices.map marshalSlice) ++ [93]) ++
  ascii ("\x7d")

/-- `json.Marshal` of a chunk array. -/
def marshalChunkList (cs : List DumpedChunk) : GoStr :=
  if cs = [] then ascii ("null")
  else [91] ++ joinComma (cs.map marshalChunk) ++ [93]

/-- `strings.Repeat` for byte strings. -/
def repeatGS : Nat → GoStr → GoStr
  | 0, _ => []
  | n + 1, s => s ++ repeatGS n s

/-- The `jsonIndent` constant (dump.go 29). -/
def jsonIndentGS : GoStr := ascii ("  ")

/-- The chunk loop of `writeJSON` (dump.go 197-205): each chunk on its own
line prefixed by `chunkPrefix`, a comma after every chunk but the last. -/
def chunkLines (cp : GoStr) : List DumpedChunk → GoStr
  | [] => []
  | [c] => [10] ++ cp ++ marshalChunk c
  | c :: r :: rest => [10] ++ cp ++ marshalChunk c ++ [44] ++ chunkLines cp (r :: rest)

/-- Model of `DumpedEntry.writeJSON` (dump.go 163-210), as the byte string
the writer emits.  `bw.WriteString` failures panic in Go and `json.Marshal`
cannot fail on these types, so the output is total.  Note the source
mutates each xattr value to its escaped form before marshalling. -/
def DumpedEntry.writeJSON (de : DumpedEntry) (depth : Nat) : GoStr :=
  let pfx := repeatGS depth jsonIndentGS
  let fpfx := pfx ++ jsonIndentGS
  [10] ++ pfx ++ [34] ++ escape de.name ++ ascii ("\": \x7b") ++
  [10] ++ fpfx ++ ascii ("\"attr\": ") ++ marshalAttr de.attr ++
  (if de.symlink.length > 0 then
    [44, 10] ++ fpfx ++ ascii ("\"symlink\": \"") ++ escape de.symlink ++ [34]
  else []) ++
  (if de.xattrs.length > 0 then
    [44, 10] ++ fpfx ++ ascii ("\"xattrs\": ") ++
      marshalXattrs (de.xattrs.map fun x => { x with value := escape x.value })
  else []) ++
  (if de.chunks.length = 1 then
    [44, 10] ++ fpfx ++ ascii ("\"chunks\": ") ++ marshalChunkList de.chunks
  else if de.chunks.length > 1 then
    [44, 10] ++ fpfx ++ ascii ("\"chunks\": [") ++
      chunkLines (fpfx ++ jsonIndentGS) de.chunks ++ [10] ++ fpfx ++ [93]
  else []) ++
  [10] ++ pfx ++ ascii ("\x7d")

/-- The part of the `writeJSON` output that precedes the chunks field
(name line, attr line, optional symlink and xattr lines). -/
def wjHead (de : DumpedEntry) (depth : Nat) : GoStr :=
  let pfx := repeatGS depth jsonIndentGS
  let fpfx := pfx ++ jsonIndentGS
  [10] ++ pfx ++ [34] ++ escape de.name ++ ascii ("\": \x7b") ++
  [10] ++ fpfx ++ ascii ("\"attr\": ") ++ marshalAttr de.attr ++
  (if de.symlink.length > 0 then
    [44, 10] ++ fpfx ++ ascii ("\"symlink\": \"") ++ escape de.symlink ++ [34]
  else []) ++
  (if de.xattrs.length > 0 then
    [44, 10] ++ fpfx ++ ascii ("\"xattrs\": ") ++
      marshalXattrs (de.xattrs.map fun x => { x with value := escape x.value })
  else [])

/-- The closing line of the `writeJSON` output. -/
def wjTail (depth : Nat) : GoStr :=
  [10] ++ repeatGS depth jsonIndentGS ++ ascii ("\x7d")

/-- The field indentation at a given depth (`fieldPrefix`). -/
def fieldIndent (depth : Nat) : GoStr := repeatGS depth jsonIndentGS ++ jsonIndentGS

/-- The per-chunk indentation at a given depth (`chunkPrefix`). -/
def chunkIndent (depth : Nat) : GoStr := fieldIndent depth ++ jsonIndentGS

/-- Number of newline bytes in a byte string. -/
def countNl (s : GoStr) : Nat := List.count 10 s

/-- Rebuild an entry with a new name and parent list (Go sets `child.Name`
and `child.Parents` by direct field assignment before visiting a child). -/
def DumpedEntry.withNameParents (e : DumpedEntry) (nm : GoStr) (ps : List Ino) : DumpedEntry :=
  match e with
  | .mk _ _ a sy xa ch es => .mk nm ps a sy xa ch es

/-- Rebuild an entry with a new attribute (Go mutates `e.Attr` in place). -/
def DumpedEntry.withAttr (e : DumpedEntry) (a : DumpedAttr) : DumpedEntry :=
  match e with
  | .mk nm ps _ sy xa ch es => .mk nm ps (some a) sy xa ch es

/-- Rebuild an entry with a new parent list (Go mutates `e.Parents`). -/
def DumpedEntry.withParents (e : DumpedEntry) (ps : List Ino) : DumpedEntry :=
  match e with
  | .mk nm _ a sy xa ch es => .mk nm ps a sy xa ch es

/-- The nanosecond ctime used by the hardlink merge (dump.go 322):
`attr.Ctime*1e9 + int64(attr.Ctimensec)`, computed in int64 arithmetic,
hence wrapped to the int64 range. -/
def int64wrap (x : Int) : Int := (x + 2 ^ 63) % 2 ^ 64 - 2 ^ 63

/-- The ctime comparison key of an attribute (dump.go 322). -/
def ctimeKey (a : DumpedAttr) : Int :=
  int64wrap (a.ctime * 1000000000 + (a.ctimensec : Int))

/-- Collector state: the inode table plus the two cumulative values fed to
`showProgress(totalIncr, currentIncr)`. -/
structure CState : Type where
  entries : Ino → Option DumpedEntry
  total : Nat
  current : Nat

/-- The empty collector state (fresh `entries` map, no progress yet). -/
def initState : CState := { entries := fun _ => none, total := 0, current := 0 }

/-- Map update for the inode table. -/
def updEntries (m : Ino → Option DumpedEntry) (i : Ino) (v : DumpedEntry) :
    Ino → Option DumpedEntry :=
  fun j => if j = i then some v else m j

/-- The collector's error returns: `inode conflict: %d` (dump.go 318),
`invalid nlink %d for inode %d type %s` (dump.go 353), and `nilAttr` for
the nil-pointer dereference Go would perform on an entry whose `Attr` is
nil (unreachable from `collectEntry`'s callers, which only pass
attr-bearing roots, and from the child loop, which skips attr-less
children before recursing). -/
inductive CollectErr : Type where
  | nilAttr : CollectErr
  | conflict : Ino → CollectErr
  | invalidNlink : Nat → Ino → FType → CollectErr
deriving DecidableEq, Repr

/-- The `e.Attr.Nlink++` performed on the parent directory's record through
the pointer aliased in the map (dump.go 346).  During the child loop the
map provably still holds the parent's record at its inode (replacing it
would need a file/file merge, impossible since the parent is a directory),
so the in-place mutation is an update of the mapped record. -/
def bumpDirNlink (m : Ino → Option DumpedEntry) (i : Ino) : Ino → Option DumpedEntry :=
  match m i with
  | some v =>
    match v.attr with
    | some a => updEntries m i (v.withAttr { a with nlink := a.nlink + 1 })
    | none => m
  | none => m

mutual
/-- Model of one visit of `collectEntry` (dump.go 303-355) on the node `e`
as reached with name `nm` and parent list `ps` (Go assigns `child.Name`
and `child.Parents` before recursing; the top-level call uses the fields
already on the entry, see `collectEntry` below).  Returns the state (the
map is mutated in place in Go, so it is returned on the error path too)
and the error, if any. -/
def collectVisit (nm : GoStr) (ps : List Ino) (e : DumpedEntry) (st : CState) :
    CState × Option CollectErr :=
  match e with
  | .mk _ _ none _ _ _ _ => (st, some .nilAttr)
  | .mk _ _ (some a) sy xa ch es =>
    let inode := a.inode
    let e0 : DumpedEntry := .mk nm ps (some a) sy xa ch es
    -- showProgress (dump.go 306-312): `(len(e.Entries), 1)` for a
    -- directory, `(0, 1)` otherwise, written as one record update
    let st1 : CState :=
      { st with total := st.total + (if a.typ = .directory then es.length else 0),
                current := st.current + 1 }
    match st1.entries inode with
    | some exist =>
      -- repeat occurrence (dump.go 314-328)
      match exist.attr with
      | none => (st1, some .nilAttr)
      | some ea =>
        if a.typ ≠ .file ∨ ea.typ ≠ .file then (st1, some (.conflict inode))
        else
          let ea1 : DumpedAttr := { ea with nlink := ea.nlink + 1 }
          let ex1 := (exist.withAttr ea1).withParents (exist.parents ++ ps)
          let st2 := { st1 with entries := updEntries st1.entries inode ex1 }
          if ctimeKey ea < ctimeKey a then
            let e1 := (e0.withAttr { a with nlink := ea1.nlink }).withParents ex1.parents
            ({ st2 with entries := updEntries st2.entries inode e1 }, none)
          else (st2, none)
    | none =>
      -- first occurrence: `entries[inode] = e` (dump.go 329)
      let st2 := { st1 with entries := updEntries st1.entries inode e0 }
      if a.typ = .file then
        -- `e.Attr.Nlink = 1` (dump.go 332), visible through the map
        ({ st2 with entries := updEntries st2.entries inode (e0.withAttr { a with nlink := 1 }) },
          none)
      else if a.typ = .directory then
        -- root/trash parent forcing and `Nlink = 2` (dump.go 334-337)
        let e1 := if inode = 1 ∨ inode = TrashInode then e0.withParents [1] else e0
        let e2 := e1.withAttr { a with nlink := 2 }
        let st3 := { st2 with entries := updEntries st2.entries inode e2 }
        collectChildren inode es st3
      else if a.nlink ≠ 1 then (st2, some (.invalidNlink a.nlink inode a.typ))
      else (st2, none)

/-- The child loop of `collectEntry` (dump.go 338-351): names and parents
are assigned, attr-less children are skipped with a warning, the parent's
link count is bumped for each directory child, and the loop aborts on the
first child error. -/
def collectChildren (inode : Ino) (cs : List (GoStr × DumpedEntry)) (st : CState) :
    CState × Option CollectErr :=
  match cs with
  | [] => (st, none)
  | (cname, child) :: rest =>
    match child.attr with
    | none => collectChildren inode rest st
    | some ca =>
      let st1 : CState :=
        { st with entries :=
            if ca.typ = .directory then bumpDirNlink st.entries inode else st.entries }
      match collectVisit cname [inode] child st1 with
      | (st2, some err) => (st2, some err)
      | (st2, none) => collectChildren inode rest st2
end

/-- Model of `collectEntry(e, entries, showProgress)` (dump.go 303): the
top-level call visits `e` with the name and parent list it already
carries. -/
def collectEntry (e : DumpedEntry) (st : CState) : CState × Option CollectErr :=
  collectVisit e.name e.parents e st

mutual
/-- The list of visits `collectEntry` performs on the subtree rooted at
`e` when `e` is reached with name `nm` and parent list `ps`, in visit
order, each in its visited form (name and parents assigned): the node
itself, then — for directories — the attr-bearing children depth-first.
Attr-less children are skipped exactly as the child loop skips them. -/
def occEntries (nm : GoStr) (ps : List Ino) (e : DumpedEntry) : List DumpedEntry :=
  match e with
  | .mk _ _ none _ _ _ _ => []
  | .mk _ _ (some a) sy xa ch es =>
    DumpedEntry.mk nm ps (some a) sy xa ch es ::
      (if a.typ = .directory then occChildren a.inode es else [])

/-- Visits arising from a child list of the directory `i`. -/
def occChildren (i : Ino) (cs : List (GoStr × DumpedEntry)) : List DumpedEntry :=
  match cs with
  | [] => []
  | (cname, c) :: rest =>
    (match c.attr with
     | none => []
     | some _ => occEntries cname [i] c) ++ occChildren i rest
end

/-- Does this visited occurrence carry inode `i`? -/
def isOccOf (i : Ino) (o : DumpedEntry) : Bool :=
  match o.attr with
  | some a => decide (a.inode = i)
  | none => false

/-- Is this visited occurrence a regular file? -/
def isFileOcc (o : DumpedEntry) : Bool :=
  match o.attr with
  | some a => decide (a.typ = FType.file)
  | none => false

/-- The occurrences of inode `i` in the visits of `collectEntry e`, in
visit order. -/
def occsOf (i : Ino) (e : DumpedEntry) : List DumpedEntry :=
  (occEntries e.name e.parents e).filter (isOccOf i)

/-- The record created for the first occurrence of a regular file:
its link count is reset to 1 (dump.go 332). -/
def mergeInit (o : DumpedEntry) : DumpedEntry :=
  match o.attr with
  | some a => o.withAttr { a with nlink := 1 }
  | none => o

/-- The hardlink merge of a stored record with one more file occurrence
(dump.go 320-326): bump the stored link count, append the incoming
parents, and replace the stored attribute by the incoming one (carrying
link count and parents over) when the incoming ctime key is strictly
larger. -/
def mergeStep (ex o : DumpedEntry) : DumpedEntry :=
  match ex.attr, o.attr with
  | some ea, some a =>
    let ea1 : DumpedAttr := { ea with nlink := ea.nlink + 1 }
    let ex1 := (ex.withAttr ea1).withParents (ex.parents ++ o.parents)
    if ctimeKey ea < ctimeKey a then
      (o.withAttr { a with nlink := ea1.nlink }).withParents ex1.parents
    else ex1
  | _, _ => ex

/-- The canonical record obtained from a first occurrence and the list of
its later occurrences. -/
def mergeFold (o : DumpedEntry) (os : List DumpedEntry) : DumpedEntry :=
  os.foldl mergeStep (mergeInit o)

/-- The ctime key of an occurrence (0 for the impossible attr-less case). -/
def keyOf (o : DumpedEntry) : Int :=
  match o.attr with
  | some a => ctimeKey a
  | none => 0

/-- `w` sits at position `k` in `os`, carries the maximal ctime key, and
every strictly earlier occurrence has a strictly smaller key: `w` is the
first occurrence attaining the maximum. -/
def isFirstMax (os : List DumpedEntry) (k : Nat) (w : DumpedEntry) : Prop :=
  os[k]? = some w ∧ (∀ o ∈ os, keyOf o ≤ keyOf w) ∧
    ∀ j, j < k → ∀ o, os[j]? = some o → keyOf o < keyOf w

/-- Number of children that are present (attr-bearing) directories: the
children for which the loop increments the parent's link count
(dump.go 345-347). -/
def subdirCount (cs : List (GoStr × DumpedEntry)) : Nat :=
  cs.countP fun p =>
    match (Prod.snd p).attr with
    | some a => decide (a.typ = FType.directory)
    | none => false

/-- Directory link-count law for one table record. -/
def dirNlinkLaw (ent : DumpedEntry) : Prop :=
  ∀ a, ent.attr = some a → a.typ = FType.directory →
    a.nlink = 2 + subdirCount ent.entries

mutual
/-- Accumulated `totalIncr` of a full successful traversal: each visited
directory contributes the size of its child map (dump.go 308). -/
def totalOf (e : DumpedEntry) : Nat :=
  match e with
  | .mk _ _ none _ _ _ _ => 0
  | .mk _ _ (some a) _ _ _ es =>
    if a.typ = .directory then es.length + totalChildren es else 0

/-- `totalIncr` contributed by a child list. -/
def totalChildren (cs : List (GoStr × DumpedEntry)) : Nat :=
  match cs with
  | [] => 0
  | (_, c) :: rest =>
    (match c.attr with
     | none => 0
     | some _ => totalOf c) + totalChildren rest
end

mutual
/-- Accumulated `currentIncr` of a full successful traversal: one per
visited node (dump.go 308, 310); attr-less children are never visited. -/
def currentOf (e : DumpedEntry) : Nat :=
  match e with
  | .mk _ _ none _ _ _ _ => 0
  | .mk _ _ (some a) _ _ _ es =>
    1 + (if a.typ = .directory then currentChildren es else 0)

/-- `currentIncr` contributed by a child list. -/
def currentChildren (cs : List (GoStr × DumpedEntry)) : Nat :=
  match cs with
  | [] => 0
  | (_, c) :: rest =>
    (match c.attr with
     | none => 0
     | some _ => currentOf c) + currentChildren rest
end

mutual
/-- Number of entries skipped with a warning during a full traversal:
the attr-less children of visited directories (dump.go 341-344). -/
def skippedOf (e : DumpedEntry) : Nat :=
  match e with
  | .mk _ _ none _ _ _ _ => 0
  | .mk _ _ (some a) _ _ _ es =>
    if a.typ = .directory then skippedChildren es else 0

/-- Skipped entries contributed by a child list. -/
def skippedChildren (cs : List (GoStr × DumpedEntry)) : Nat :=
  match cs with
  | [] => 0
  | (_, c) :: rest =>
    (match c.attr with
     | none => 1
     | some _ => skippedOf c) + skippedChildren rest
end

/-- Attribute builder for the concrete example trees below. -/
def attrW (i : Ino) (t : FType) (nl : Nat) (ct : Int) (cns : Nat) : DumpedAttr :=
  { inode := i, typ := t, mode := 420, uid := 0, gid := 0, atime := 0, mtime := 0,
    ctime := ct, atimensec := 0, mtimensec := 0, ctimensec := cns, nlink := nl,
    length := 0, rdev := 0 }

/-- A regular-file node with a given inode and ctime (wire nlink 9, which
the collector must discard). -/
def fileW (i : Ino) (ct : Int) : DumpedEntry :=
  .mk [] [] (some (attrW i .file 9 ct 0)) [] [] [] []

/-- A directory node with a given inode and children (wire nlink 77, which
the collector must discard). -/
def dirW (i : Ino) (cs : List (GoStr × DumpedEntry)) : DumpedEntry :=
  .mk [] [] (some (attrW i .directory 77 5 0)) [] [] [] cs

/-- A symlink node with a given inode and wire nlink. -/
def linkW (i : Ino) (nl : Nat) : DumpedEntry :=
  .mk [] [] (some (attrW i .symlink nl 0 0)) [104, 105] [] [] []

/-- A node with no attribute (`Attr == nil` on the wire). -/
def noAttrW : DumpedEntry := .mk [] [] none [] [] [] []

/-- Scenario B of the spec: file inode 5 under two names, ctimes 100 and
200. -/
def entHardlinks : DumpedEntry := dirW 1 [([120], fileW 5 100), ([121], fileW 5 200)]

/-- Scenario C of the spec: symlink inode 7 under two different parents. -/
def entDupSymlink : DumpedEntry := dirW 1 [([97], linkW 7 1), ([98], linkW 7 1)]

/-- A duplicated symlink inode 7 preceded in the child list by a symlink
with an invalid link count 2. -/
def entDupPreempted : DumpedEntry :=
  dirW 1 [([97], linkW 4 2), ([98], linkW 7 1), ([99], linkW 7 1)]

/-- A root directory containing the trash directory. -/
def entRootTrash : DumpedEntry := dirW 1 [([116], dirW TrashInode [])]

/-- A first-seen fifo with the invalid link count 0. -/
def entFifoBad : DumpedEntry := .mk [] [9] (some (attrW 3 .fifo 0 0 0)) [] [] [] []

/-- A first-seen fifo with the valid link count 1. -/
def entFifoOk : DumpedEntry := .mk [] [9] (some (attrW 3 .fifo 1 0 0)) [] [] [] []

/-- A directory with an attr-less child followed by a file child. -/
def entSkip : DumpedEntry := dirW 1 [([97], noAttrW), ([98], fileW 5 0)]

/-- A one-slice chunk with a given index. -/
def chunkW (ix : Nat) : DumpedChunk := ⟨ix, [⟨11, 0, 4, 0, 4⟩]⟩

/-- A file node carrying two data chunks. -/
def entTwoChunks : DumpedEntry :=
  .mk (ascii ("f")) [] (some (attrW 2 .file 1 0 0)) [] [] [chunkW 0, chunkW 1] []

/-- Is this visited occurrence an attr-bearing non-regular-file
(directory, symlink, device, fifo or socket)? -/
def isNonFileOcc (o : DumpedEntry) : Bool :=
  match o.attr with
  | some a => decide (a.typ ≠ FType.file)
  | none => false

/-- The table holds a record at `i` whose attribute, if any, is not a
regular file. -/
def StoredNonFile (st : CState) (i : Ino) : Prop :=
  ∃ v, st.entries i = some v ∧ ∀ a, v.attr = some a → a.typ ≠ FType.file

/-- The table holds a record at `i` whose attribute is a regular file. -/
def StoredFile (st : CState) (i : Ino) : Prop :=
  ∃ v a, st.entries i = some v ∧ v.attr = some a ∧ a.typ = FType.file

/-- The evolution of the table slot for one inode across a sequence of
regular-file occurrences: an empty slot is filled by the first occurrence
(`mergeInit`), a filled slot is merged with each occurrence in turn
(`mergeStep`). -/
def ofold : Option DumpedEntry → List DumpedEntry → Option DumpedEntry
  | none, [] => none
  | none, o :: os => some (mergeFold o os)
  | some r, os => some (os.foldl mergeStep r)

/-- The chunks segment of the `writeJSON` output: nothing for zero chunks,
the compact inline array for exactly one chunk, the indented one-chunk-
per-line sequence for two or more (dump.go 189-207). -/
def wjChunkSeg (de : DumpedEntry) (d : Nat) : GoStr :=
  if de.chunks.length = 1 then
    [44, 10] ++ fieldIndent d ++ ascii ("\"chunks\": ") ++ marshalChunkList de.chunks
  else if de.chunks.length > 1 then
    [44, 10] ++ fieldIndent d ++ ascii ("\"chunks\": [") ++
      chunkLines (chunkIndent d) de.chunks ++ [10] ++ fieldIndent d ++ [93]
  else []

/-- A collector state already holding the record `entFifoOk` at inode 9. -/
def statePre : CState :=
  { entries := updEntries initState.entries 9 entFifoOk, total := 0, current := 0 }

/-- A collector state already holding the symlink record `linkW 7 1` at
inode 7. -/
def stateLink7 : CState :=
  { entries := updEntries initState.entries 7 (linkW 7 1), total := 0, current := 0 }

/-- The first occurrence attaining the maximal ctime key among `b :: os`,
tracked by the strict-increase fold the merge performs. -/
def bestOcc (b : DumpedEntry) (os : List DumpedEntry) : DumpedEntry :=
  os.foldl (fun x o => if keyOf x < keyOf o then o else x) b

theorem unescapeScan_of_not_mem (l : GoStr) (h : 37 ∉ l) : unescapeScan l = l := by
  induction l with
  | nil => rfl
  | cons c rest ih =>
    have hc : c ≠ 37 := fun e => h (e ▸ List.mem_cons_self c rest)
    have hr : 37 ∉ rest := fun m => h (List.mem_cons_of_mem _ m)
    conv_lhs => rw [unescapeScan.eq_def]
    simp [hc, ih hr]

theorem unescape_eq_scan (l : GoStr) : unescape l = unescapeScan l := by
  unfold unescape
  split
  · rfl
  · exact (unescapeScan_of_not_mem l (by assumption)).symm

/-- Claim C6: `unescape` scans left to right; a percent sign followed by
two valid hexadecimal digits is decoded to the byte `h*16+l` and the scan
advances past all three bytes; a percent sign not so followed (bad digits,
or fewer than two following bytes) is passed through literally with no
failure; in particular `unescape "a%ZZb"` is `"a%ZZb"` unchanged. -/
theorem c6_unescape_tolerant :
    (∀ a b rest h l, parseHex a = some h → parseHex b = some l →
      unescape (37 :: a :: b :: rest) = (h * 16 + l) :: unescape rest) ∧
    (∀ a b rest, parseHex a = none ∨ parseHex b = none →
      unescape (37 :: a :: b :: rest) = 37 :: unescape (a :: b :: rest)) ∧
    (∀ a, unescape [37, a] = [37, a]) ∧
    unescape [37] = [37] ∧
    unescape (ascii ("a%ZZb")) = ascii ("a%ZZb") := by
  refine ⟨?_, ?_, ?_, ?_, ?_⟩
  · intro a b rest h l ha hb
    rw [unescape_eq_scan, unescape_eq_scan]
    conv_lhs => rw [unescapeScan.eq_def]
    simp [ha, hb]
  · intro a b rest hab
    rw [unescape_eq_scan, unescape_eq_scan]
    conv_lhs => rw [unescapeScan.eq_def]
    rcases hab with ha | hb
    · simp [ha]
    · cases ha : parseHex a <;> simp [ha, hb]
  · intro a
    rw [unescape_eq_scan]
    conv_lhs => rw [unescapeScan.eq_def]
    by_cases ha : a = 37 <;> simp [unescapeScan, ha]
  · rfl
  · rfl

/-- Witness for C6 at concrete bytes: `"%A0c"` decodes its escape to byte
160 and continues after it, with both hypotheses discharged. -/
theorem c6_unescape_tolerant_witness :
    parseHex 65 = some 10 ∧ parseHex 48 = some 0 ∧
      unescape [37, 65, 48, 99] = (10 * 16 + 0) :: unescape [99] :=
  ⟨rfl, rfl, c6_unescape_tolerant.1 65 48 [99] 10 0 rfl rfl⟩

/-- Claim C1 is false on the code: the byte sequence `EF BF BD` (the valid
UTF-8 encoding of U+FFFD) makes Go's range loop see `utf8.RuneError` with
width 3, so `escape` emits `%EF` and silently drops the two continuation
bytes; the round trip returns `EF`, not the original three bytes. -/
theorem c1_roundtrip_fails_on_fffd :
    unescape (escape [0xEF, 0xBF, 0xBD]) = [0xEF] ∧
      unescape (escape [0xEF, 0xBF, 0xBD]) ≠ [0xEF, 0xBF, 0xBD] :=
  ⟨rfl, by decide⟩

theorem countNl_append (a b : GoStr) : countNl (a ++ b) = countNl a + countNl b :=
  List.count_append 10 a b

theorem countNl_natDecAux (fuel n : Nat) : countNl (natDecAux fuel n) = 0 := by
  induction fuel generalizing n with
  | zero => rfl
  | succ f ih =>
    rw [natDecAux]
    split
    · have h10 : ¬48 + n = 10 := by omega
      simp [countNl, List.count_cons, h10]
    · have h10 : ¬48 + n % 10 = 10 := by omega
      rw [countNl_append, ih]
      simp [countNl, List.count_cons, h10]

theorem countNl_natDec (n : Nat) : countNl (natDec n) = 0 := countNl_natDecAux _ _

theorem countNl_intDec (i : Int) : countNl (intDec i) = 0 := by
  unfold intDec
  split
  · simp [countNl, countNl_natDec (Int.natAbs i), natDec]
    exact countNl_natDecAux _ _
  · exact countNl_natDec _

theorem countNl_joinComma (ls : List GoStr) (h : ∀ s ∈ ls, countNl s = 0) :
    countNl (joinComma ls) = 0 := by
  induction ls with
  | nil => rfl
  | cons s rest ih =>
    cases rest with
    | nil => exact h s (List.mem_cons_self _ _)
    | cons r rest2 =>
      rw [joinComma, countNl_append, countNl_append]
      rw [h s (List.mem_cons_self _ _), ih fun t ht => h t (List.mem_cons_of_mem _ ht)]
      rfl

theorem countNl_marshalSlice (s : DumpedSlice) : countNl (marshalSlice s) = 0 := by
  unfold marshalSlice
  split_ifs <;>
    simp [countNl_append, countNl_natDec] <;> decide

theorem countNl_marshalChunk (c : DumpedChunk) : countNl (marshalChunk c) = 0 := by
  have hsl : countNl (if c.slices = [] then ascii ("null")
      else [91] ++ joinComma (c.slices.map marshalSlice) ++ [93]) = 0 := by
    split_ifs
    · decide
    · rw [countNl_append, countNl_append,
        countNl_joinComma _ fun t ht => ?_]
      · decide
      · obtain ⟨sl, _, rfl⟩ := List.mem_map.mp ht
        exact countNl_marshalSlice sl
  unfold marshalChunk
  simp only [countNl_append]
  rw [countNl_natDec, hsl]
  decide

theorem countNl_repeatGS (n : Nat) (s : GoStr) (h : countNl s = 0) :
    countNl (repeatGS n s) = 0 := by
  induction n with
  | zero => rfl
  | succ m ih => rw [repeatGS, countNl_append, h, ih]

theorem countNl_fieldIndent (d : Nat) : countNl (fieldIndent d) = 0 := by
  rw [fieldIndent, countNl_append, countNl_repeatGS d jsonIndentGS (by decide)]
  decide

theorem countNl_chunkIndent (d : Nat) : countNl (chunkIndent d) = 0 := by
  rw [chunkIndent, countNl_append, countNl_fieldIndent]
  decide

theorem countNl_chunkLines (cp : GoStr) (hcp : countNl cp = 0) (cs : List DumpedChunk) :
    countNl (chunkLines cp cs) = cs.length := by
  induction cs with
  | nil => rfl
  | cons c rest ih =>
    cases rest with
    | nil =>
      rw [chunkLines, countNl_append, countNl_append, hcp, countNl_marshalChunk]
      rfl
    | cons c2 rest2 =>
      rw [chunkLines]
      rw [countNl_append, countNl_append, countNl_append, countNl_append]
      rw [hcp, countNl_marshalChunk, ih]
      simp [countNl]
      omega

theorem countNl_marshalChunkList (cs : List DumpedChunk) :
    countNl (marshalChunkList cs) = 0 := by
  unfold marshalChunkList
  split_ifs
  · decide
  · rw [countNl_append, countNl_append,
      countNl_joinComma _ fun t ht => ?_]
    · decide
    · obtain ⟨c, _, rfl⟩ := List.mem_map.mp ht
      exact countNl_marshalChunk c

/-- Claim C9: the `writeJSON` output decomposes into head, chunk segment
and closing line; a node with zero chunks emits no chunk segment at all,
a node with exactly one chunk emits the `chunks` field as one compact
value on a single output line (one newline, none inside the value), and a
node with two or more chunks emits an indented sequence whose newline
count is `chunks + 2` — exactly one chunk between consecutive newlines,
since no marshalled chunk contains a newline. -/
theorem c9_writer_chunk_modes (de : DumpedEntry) (d : Nat) :
    de.writeJSON d = wjHead de d ++ wjChunkSeg de d ++ wjTail d ∧
    (de.chunks = [] → wjChunkSeg de d = []) ∧
    (∀ c, de.chunks = [c] →
      wjChunkSeg de d =
        [44, 10] ++ fieldIndent d ++ ascii ("\"chunks\": ") ++ marshalChunkList [c] ∧
      countNl (wjChunkSeg de d) = 1) ∧
    (2 ≤ de.chunks.length →
      wjChunkSeg de d =
        [44, 10] ++ fieldIndent d ++ ascii ("\"chunks\": [") ++
          chunkLines (chunkIndent d) de.chunks ++ [10] ++ fieldIndent d ++ [93] ∧
      countNl (wjChunkSeg de d) = de.chunks.length + 2) ∧
    (∀ c ∈ de.chunks, countNl (marshalChunk c) = 0) := by
  refine ⟨?_, ?_, ?_, ?_, fun c _ => countNl_marshalChunk c⟩
  · unfold DumpedEntry.writeJSON wjHead wjChunkSeg wjTail
    split_ifs <;> simp [fieldIndent, chunkIndent, List.append_assoc]
  · intro h0
    simp [wjChunkSeg, h0]
  · intro c hc
    have he : wjChunkSeg de d =
        [44, 10] ++ fieldIndent d ++ ascii ("\"chunks\": ") ++ marshalChunkList [c] := by
      simp [wjChunkSeg, hc]
    refine ⟨he, ?_⟩
    rw [he, countNl_append, countNl_append, countNl_append,
      countNl_fieldIndent, countNl_marshalChunkList]
    decide
  · intro h2
    have h1 : ¬de.chunks.length = 1 := by omega
    have hgt : de.chunks.length > 1 := by omega
    have he : wjChunkSeg de d =
        [44, 10] ++ fieldIndent d ++ ascii ("\"chunks\": [") ++
          chunkLines (chunkIndent d) de.chunks ++ [10] ++ fieldIndent d ++ [93] := by
      simp [wjChunkSeg, h1, hgt]
    refine ⟨he, ?_⟩
    rw [he, countNl_append, countNl_append, countNl_append, countNl_append,
      countNl_append, countNl_append, countNl_fieldIndent,
      countNl_chunkLines _ (countNl_chunkIndent d)]
    have e1 : countNl [44, 10] = 1 := by decide
    have e2 : countNl (ascii ("\"chunks\": [")) = 0 := by decide
    have e3 : countNl ([10] : GoStr) = 1 := by decide
    have e4 : countNl ([93] : GoStr) = 0 := by decide
    rw [e1, e2, e3, e4]
    omega

/-- Witness for C9 at the two-chunk node `entTwoChunks`: its chunk segment
carries four newlines (one per chunk plus the opening and closing lines). -/
theorem c9_writer_chunk_modes_witness :
    2 ≤ entTwoChunks.chunks.length ∧
      countNl (wjChunkSeg entTwoChunks 1) = entTwoChunks.chunks.length + 2 :=
  ⟨by decide, ((c9_writer_chunk_modes entTwoChunks 1).2.2.2.1 (by decide)).2⟩

theorem updEntries_self (m : Ino → Option DumpedEntry) (i : Ino) (v : DumpedEntry) :
    updEntries m i v i = some v := by
  simp [updEntries]

theorem updEntries_ne (m : Ino → Option DumpedEntry) (i : Ino) (v : DumpedEntry)
    (j : Ino) (h : j ≠ i) : updEntries m i v j = m j := by
  simp [updEntries, h]

theorem updEntries_isSome (m : Ino → Option DumpedEntry) (i : Ino) (v : DumpedEntry)
    (j : Ino) (h : (m j).isSome) : ((updEntries m i v) j).isSome := by
  unfold updEntries
  split
  · rfl
  · exact h

theorem bumpDirNlink_ne (m : Ino → Option DumpedEntry) (i j : Ino) (h : j ≠ i) :
    bumpDirNlink m i j = m j := by
  unfold bumpDirNlink
  cases hm : m i with
  | none => simp only [hm]
  | some v =>
    simp only [hm]
    cases ha : v.attr with
    | none => simp only [ha]
    | some a => simp only [ha]; exact updEntries_ne _ _ _ _ h

theorem bumpDirNlink_isSome (m : Ino → Option DumpedEntry) (i j : Ino)
    (h : (m j).isSome) : ((bumpDirNlink m i) j).isSome := by
  unfold bumpDirNlink
  cases hm : m i with
  | none => simp only [hm]; exact h
  | some v =>
    simp only [hm]
    cases ha : v.attr with
    | none => simp only [ha]; exact h
    | some a => simp only [ha]; exact updEntries_isSome _ _ _ _ h

mutual
theorem collectVisit_keys_mono (nm : GoStr) (ps : List Ino) (e : DumpedEntry) (st : CState)
    (i : Ino) (h : (st.entries i).isSome) :
    (((collectVisit nm ps e st).1).entries i).isSome := by
  match e with
  | .mk nm0 ps0 none sy xa ch es => exact h
  | .mk nm0 ps0 (some a) sy xa ch es =>
    simp only [collectVisit]
    split
    · rename_i exist hx
      split
      · exact h
      · rename_i ea hea
        split
        · exact h
        · split
          · exact updEntries_isSome _ _ _ _ (updEntries_isSome _ _ _ _ h)
          · exact updEntries_isSome _ _ _ _ h
    · split
      · exact updEntries_isSome _ _ _ _ (updEntries_isSome _ _ _ _ h)
      · split
        · exact collectChildren_keys_mono a.inode es _ i
            (updEntries_isSome _ _ _ _ (updEntries_isSome _ _ _ _ h))
        · split
          · exact updEntries_isSome _ _ _ _ h
          · exact updEntries_isSome _ _ _ _ h

theorem collectChildren_keys_mono (i0 : Ino) (cs : List (GoStr × DumpedEntry)) (st : CState)
    (i : Ino) (h : (st.entries i).isSome) :
    (((collectChildren i0 cs st).1).entries i).isSome := by
  match cs with
  | [] => exact h
  | (cname, child) :: rest =>
    simp only [collectChildren]
    split
    · exact collectChildren_keys_mono i0 rest st i h
    · rename_i ca hca
      split
      · rename_i st2 err heq
        have h1 : ((if ca.typ = .directory then bumpDirNlink st.entries i0 else st.entries) i).isSome := by
          split
          · exact bumpDirNlink_isSome _ _ _ h
          · exact h
        have h2 := collectVisit_keys_mono cname [i0] child
          { st with entries := if ca.typ = .directory then bumpDirNlink st.entries i0 else st.entries } i h1
        rw [heq] at h2
        exact h2
      · rename_i st2 heq
        have h1 : ((if ca.typ = .directory then bumpDirNlink st.entries i0 else st.entries) i).isSome := by
          split
          · exact bumpDirNlink_isSome _ _ _ h
          · exact h
        have h2 := collectVisit_keys_mono cname [i0] child
          { st with entries := if ca.typ = .directory then bumpDirNlink st.entries i0 else st.entries } i h1
        rw [heq] at h2
        exact collectChildren_keys_mono i0 rest st2 i h2
end

mutual
theorem collectVisit_frame_nonfile (nm : GoStr) (ps : List Ino) (e : DumpedEntry) (st : CState)
    (i : Ino) (v : DumpedEntry) (hv : st.entries i = some v)
    (hnf : ∀ a, v.attr = some a → a.typ ≠ FType.file) :
    (((collectVisit nm ps e st).1).entries i) = some v := by
  match e with
  | .mk nm0 ps0 none sy xa ch es => exact hv
  | .mk nm0 ps0 (some a) sy xa ch es =>
    simp only [collectVisit]
    split
    · rename_i exist hx
      split
      · exact hv
      · rename_i ea hea
        split
        · exact hv
        · rename_i hcond
          by_cases hi : i = a.inode
          · exfalso
            rw [hi] at hv
            have hve : exist = v := by
              have := hx.symm.trans hv
              exact Option.some.inj this
            rw [hve] at hea
            rcases not_or.mp hcond with ⟨h1, h2⟩
            exact hnf ea hea (not_not.mp h2)
          · split
            · simp only [updEntries_ne _ _ _ _ hi]
              exact hv
            · simp only [updEntries_ne _ _ _ _ hi]
              exact hv
    · rename_i hx
      have hi : i ≠ a.inode := by
        intro h
        rw [h, hx] at hv
        cases hv
      split
      · simp only [updEntries_ne _ _ _ _ hi]
        exact hv
      · split
        · refine collectChildren_frame_nonfile a.inode es _ i v ?_ hnf hi
          simp only [updEntries_ne _ _ _ _ hi]
          exact hv
        · split
          · simp only [updEntries_ne _ _ _ _ hi]
            exact hv
          · simp only [updEntries_ne _ _ _ _ hi]
            exact hv

theorem collectChildren_frame_nonfile (i0 : Ino) (cs : List (GoStr × DumpedEntry)) (st : CState)
    (i : Ino) (v : DumpedEntry) (hv : st.entries i = some v)
    (hnf : ∀ a, v.attr = some a → a.typ ≠ FType.file) (hne : i ≠ i0) :
    (((collectChildren i0 cs st).1).entries i) = some v := by
  match cs with
  | [] => exact hv
  | (cname, child) :: rest =>
    simp only [collectChildren]
    split
    · exact collectChildren_frame_nonfile i0 rest st i v hv hnf hne
    · rename_i ca hca
      have hv1 : ((if ca.typ = .directory then bumpDirNlink st.entries i0 else st.entries) i) = some v := by
        split
        · rw [bumpDirNlink_ne _ _ _ hne]
          exact hv
        · exact hv
      have h2 := collectVisit_frame_nonfile cname [i0] child
        { st with entries := if ca.typ = .directory then bumpDirNlink st.entries i0 else st.entries }
        i v hv1 hnf
      split
      · rename_i st2 err heq
        rw [heq] at h2
        exact h2
      · rename_i st2 heq
        rw [heq] at h2
        exact collectChildren_frame_nonfile i0 rest st2 i v h2 hnf hne
end

@[simp]
theorem attr_withAttr (e : DumpedEntry) (a : DumpedAttr) : (e.withAttr a).attr = some a := by
  cases e; rfl

@[simp]
theorem attr_withParents (e : DumpedEntry) (p : List Ino) : (e.withParents p).attr = e.attr := by
  cases e; rfl

@[simp]
theorem attr_withNameParents (e : DumpedEntry) (nm : GoStr) (p : List Ino) :
    (e.withNameParents nm p).attr = e.attr := by
  cases e; rfl

@[simp]
theorem parents_withParents (e : DumpedEntry) (p : List Ino) : (e.withParents p).parents = p := by
  cases e; rfl

@[simp]
theorem parents_withAttr (e : DumpedEntry) (a : DumpedAttr) :
    (e.withAttr a).parents = e.parents := by
  cases e; rfl

@[simp]
theorem entries_withAttr (e : DumpedEntry) (a : DumpedAttr) :
    (e.withAttr a).entries = e.entries := by
  cases e; rfl

@[simp]
theorem entries_withParents (e : DumpedEntry) (p : List Ino) :
    (e.withParents p).entries = e.entries := by
  cases e; rfl

theorem withAttr_withAttr (e : DumpedEntry) (a b : DumpedAttr) :
    (e.withAttr a).withAttr b = e.withAttr b := by
  cases e; rfl

theorem withParents_withAttr (e : DumpedEntry) (p : List Ino) (a : DumpedAttr) :
    (e.withParents p).withAttr a = (e.withAttr a).withParents p := by
  cases e; rfl

theorem bumpDirNlink_storedFile (m : Ino → Option DumpedEntry) (i0 j : Ino)
    (v : DumpedEntry) (a : DumpedAttr) (hv : m j = some v) (ha : v.attr = some a)
    (ht : a.typ = FType.file) :
    ∃ v2 a2, bumpDirNlink m i0 j = some v2 ∧ v2.attr = some a2 ∧ a2.typ = FType.file := by
  by_cases hj : j = i0
  · subst hj
    unfold bumpDirNlink
    rw [hv]
    simp only [ha]
    refine ⟨v.withAttr { a with nlink := a.nlink + 1 }, { a with nlink := a.nlink + 1 }, ?_, ?_, ht⟩
    · exact updEntries_self _ _ _
    · simp
  · rw [bumpDirNlink_ne _ _ _ hj, hv]
    exact ⟨v, a, rfl, ha, ht⟩

mutual
theorem collectVisit_file_stays (nm : GoStr) (ps : List Ino) (e : DumpedEntry) (st : CState)
    (i : Ino) (v : DumpedEntry) (a0 : DumpedAttr) (hv : st.entries i = some v)
    (ha0 : v.attr = some a0) (ht : a0.typ = FType.file) :
    ∃ v2 a2, ((collectVisit nm ps e st).1).entries i = some v2 ∧ v2.attr = some a2 ∧
      a2.typ = FType.file := by
  match e with
  | .mk nm0 ps0 none sy xa ch es => exact ⟨v, a0, hv, ha0, ht⟩
  | .mk nm0 ps0 (some a) sy xa ch es =>
    simp only [collectVisit]
    split
    · rename_i exist hx
      split
      · exact ⟨v, a0, hv, ha0, ht⟩
      · rename_i ea hea
        split
        · exact ⟨v, a0, hv, ha0, ht⟩
        · rename_i hcond
          by_cases hi : i = a.inode
          · subst hi
            have hve : exist = v := Option.some.inj (hx.symm.trans hv)
            subst hve
            rcases not_or.mp hcond with ⟨h1, h2⟩
            have haf : a.typ = FType.file := not_not.mp h1
            split
            · refine ⟨_, { a with nlink := ea.nlink + 1 }, updEntries_self _ _ _, ?_, haf⟩
              simp
            · refine ⟨_, { ea with nlink := ea.nlink + 1 }, updEntries_self _ _ _, ?_, ?_⟩
              · simp
              · exact not_not.mp h2
          · split
            · simp only [updEntries_ne _ _ _ _ hi]
              exact ⟨v, a0, hv, ha0, ht⟩
            · simp only [updEntries_ne _ _ _ _ hi]
              exact ⟨v, a0, hv, ha0, ht⟩
    · rename_i hx
      have hi : i ≠ a.inode := by
        intro h
        rw [h, hx] at hv
        cases hv
      split
      · simp only [updEntries_ne _ _ _ _ hi]
        exact ⟨v, a0, hv, ha0, ht⟩
      · split
        · refine collectChildren_file_stays a.inode es _ i v a0 ?_ ha0 ht
          simp only [updEntries_ne _ _ _ _ hi]
          exact hv
        · split
          · simp only [updEntries_ne _ _ _ _ hi]
            exact ⟨v, a0, hv, ha0, ht⟩
          · simp only [updEntries_ne _ _ _ _ hi]
            exact ⟨v, a0, hv, ha0, ht⟩

theorem collectChildren_file_stays (i0 : Ino) (cs : List (GoStr × DumpedEntry)) (st : CState)
    (i : Ino) (v : DumpedEntry) (a0 : DumpedAttr) (hv : st.entries i = some v)
    (ha0 : v.attr = some a0) (ht : a0.typ = FType.file) :
    ∃ v2 a2, ((collectChildren i0 cs st).1).entries i = some v2 ∧ v2.attr = some a2 ∧
      a2.typ = FType.file := by
  match cs with
  | [] => exact ⟨v, a0, hv, ha0, ht⟩
  | (cname, child) :: rest =>
    simp only [collectChildren]
    split
    · exact collectChildren_file_stays i0 rest st i v a0 hv ha0 ht
    · rename_i ca hca
      have h1 : ∃ v1 a1,
          ((if ca.typ = .directory then bumpDirNlink st.entries i0 else st.entries) i) = some v1 ∧
            v1.attr = some a1 ∧ a1.typ = FType.file := by
        split
        · exact bumpDirNlink_storedFile _ _ _ _ _ hv ha0 ht
        · exact ⟨v, a0, hv, ha0, ht⟩
      obtain ⟨v1, a1, hv1, ha1, ht1⟩ := h1
      have h2 := collectVisit_file_stays cname [i0] child
        { st with entries := if ca.typ = .directory then bumpDirNlink st.entries i0 else st.entries }
        i v1 a1 hv1 ha1 ht1
      split
      · rename_i st2 err heq
        rw [heq] at h2
        exact h2
      · rename_i st2 heq
        rw [heq] at h2
        obtain ⟨v2, a2, hv2, ha2, ht2⟩ := h2
        exact collectChildren_file_stays i0 rest st2 i v2 a2 hv2 ha2 ht2
end

/-- Claim C7: a first-seen visit (`st.entries a.inode = none`) of an entry
whose type is neither regular file nor directory returns the
invalid-nlink StructuralError naming that inode if and only if the
entry's link count differs from 1 (such a visit has no other outcome:
with link count 1 it succeeds). -/
theorem collectEntry_other_first_seen (e : DumpedEntry) (a : DumpedAttr) (st : CState)
    (ha : e.attr = some a) (hf : a.typ ≠ FType.file) (hd : a.typ ≠ FType.directory)
    (hfresh : st.entries a.inode = none) :
    (collectEntry e st).2 = some (.invalidNlink a.nlink a.inode a.typ) ↔ a.nlink ≠ 1 := by
  obtain ⟨nm0, ps0, oa, sy, xa, ch, es⟩ := e
  cases oa with
  | none => simp [DumpedEntry.attr] at ha
  | some a1 =>
    have he : a = a1 := by
      have := ha
      simp [DumpedEntry.attr] at this
      exact this.symm
    subst he
    unfold collectEntry
    simp only [DumpedEntry.name, DumpedEntry.parents]
    simp only [collectVisit]
    simp only [hfresh]
    simp only [if_neg hf, if_neg hd]
    by_cases h1 : a.nlink = 1
    · simp [h1]
    · simp [h1]

theorem collectEntry_conflict_on_repeat (e : DumpedEntry) (a : DumpedAttr) (st : CState)
    (ex : DumpedEntry) (exa : DumpedAttr)
    (ha : e.attr = some a) (hex : st.entries a.inode = some ex) (hexa : ex.attr = some exa)
    (hnf : a.typ ≠ FType.file ∨ exa.typ ≠ FType.file) :
    (collectEntry e st).2 = some (.conflict a.inode) := by
  obtain ⟨nm0, ps0, oa, sy, xa, ch, es⟩ := e
  cases oa with
  | none => simp [DumpedEntry.attr] at ha
  | some a1 =>
    have he : a = a1 := by
      have := ha
      simp [DumpedEntry.attr] at this
      exact this.symm
    subst he
    unfold collectEntry
    simp only [DumpedEntry.name, DumpedEntry.parents]
    simp only [collectVisit]
    simp only [hex, hexa]
    rw [if_pos hnf]

mutual
theorem collectVisit_invalid_offender (nm : GoStr) (ps : List Ino) (e : DumpedEntry)
    (st : CState) (n : Nat) (i : Ino) (t : FType)
    (herr : (collectVisit nm ps e st).2 = some (.invalidNlink n i t)) :
    ∃ v a, ((collectVisit nm ps e st).1).entries i = some v ∧ v.attr = some a ∧
      a.inode = i ∧ a.typ = t ∧ a.nlink = n ∧ n ≠ 1 ∧ t ≠ FType.file ∧ t ≠ FType.directory := by
  match e with
  | .mk nm0 ps0 none sy xa ch es => simp [collectVisit] at herr
  | .mk nm0 ps0 (some a) sy xa ch es =>
    simp only [collectVisit] at herr ⊢
    cases hx : st.entries a.inode with
    | some exist =>
      simp only [hx] at herr ⊢
      cases hea : exist.attr with
      | none => simp only [hea] at herr; simp at herr
      | some ea =>
        simp only [hea] at herr ⊢
        by_cases hcond : a.typ ≠ FType.file ∨ ea.typ ≠ FType.file
        · rw [if_pos hcond] at herr
          simp at herr
        · rw [if_neg hcond] at herr ⊢
          by_cases hct : ctimeKey ea < ctimeKey a
          · rw [if_pos hct] at herr
            simp at herr
          · rw [if_neg hct] at herr
            simp at herr
    | none =>
      simp only [hx] at herr ⊢
      by_cases hfile : a.typ = FType.file
      · rw [if_pos hfile] at herr
        simp at herr
      · rw [if_neg hfile] at herr ⊢
        by_cases hdir : a.typ = FType.directory
        · rw [if_pos hdir] at herr ⊢
          exact collectChildren_invalid_offender a.inode es _ n i t herr
        · rw [if_neg hdir] at herr ⊢
          by_cases hnl : a.nlink ≠ 1
          · rw [if_pos hnl] at herr
            simp only [Option.some.injEq, CollectErr.invalidNlink.injEq] at herr
            obtain ⟨rfl, rfl, rfl⟩ := herr
            rw [if_pos hnl]
            refine ⟨_, a, updEntries_self _ _ _, ?_, rfl, rfl, rfl, hnl, hfile, hdir⟩
            simp [DumpedEntry.attr]
          · rw [if_neg hnl] at herr
            simp at herr

theorem collectChildren_invalid_offender (i0 : Ino) (cs : List (GoStr × DumpedEntry))
    (st : CState) (n : Nat) (i : Ino) (t : FType)
    (herr : (collectChildren i0 cs st).2 = some (.invalidNlink n i t)) :
    ∃ v a, ((collectChildren i0 cs st).1).entries i = some v ∧ v.attr = some a ∧
      a.inode = i ∧ a.typ = t ∧ a.nlink = n ∧ n ≠ 1 ∧ t ≠ FType.file ∧ t ≠ FType.directory := by
  match cs with
  | [] => cases herr
  | (cname, child) :: rest =>
    simp only [collectChildren] at herr ⊢
    cases hca : child.attr with
    | none =>
      simp only [hca] at herr ⊢
      exact collectChildren_invalid_offender i0 rest st n i t herr
    | some ca =>
      simp only [hca] at herr ⊢
      cases hv : collectVisit cname [i0] child
          { st with entries := if ca.typ = .directory then bumpDirNlink st.entries i0 else st.entries } with
      | mk st2 r =>
        cases r with
        | some err =>
          simp only [hv] at herr ⊢
          have h2 := collectVisit_invalid_offender cname [i0] child
            { st with entries := if ca.typ = .directory then bumpDirNlink st.entries i0 else st.entries }
            n i t (by rw [hv]; exact herr)
          rw [hv] at h2
          exact h2
        | none =>
          simp only [hv] at herr ⊢
          exact collectChildren_invalid_offender i0 rest st2 n i t herr
end

/-- Claim C10: `collectEntry` is not atomic on error.  First, table keys
are never removed: any inode present in the table before a call — hence
in particular every entry inserted before a failing node — is still
present in the returned table, also when the call returns an error.
Second, on an invalid-nlink StructuralError the offending entry itself
has already been inserted: the returned table maps the named inode to a
record carrying the offending attribute (matching type, link count not
1). -/
theorem c10_error_nonatomic :
    (∀ e st i, (st.entries i).isSome → (((collectEntry e st).1).entries i).isSome) ∧
    (∀ e st n i t, (collectEntry e st).2 = some (.invalidNlink n i t) →
      ∃ v a, ((collectEntry e st).1).entries i = some v ∧ v.attr = some a ∧
        a.inode = i ∧ a.typ = t ∧ a.nlink = n ∧ n ≠ 1) :=
  ⟨fun e st i h => collectVisit_keys_mono e.name e.parents e st i h,
   fun e st n i t herr => by
     obtain ⟨v, a, h1, h2, h3, h4, h5, h6, _, _⟩ :=
       collectVisit_invalid_offender e.name e.parents e st n i t herr
     exact ⟨v, a, h1, h2, h3, h4, h5, h6⟩⟩

/-- Witness for C10: a pre-existing record at inode 9 survives the failing
run on `entFifoBad`, and the offender at inode 3 is present in the
table returned together with the error. -/
theorem c10_witness :
    (statePre.entries 9).isSome ∧
    (((collectEntry entFifoBad statePre).1).entries 9).isSome ∧
    (collectEntry entFifoBad initState).2 = some (.invalidNlink 0 3 .fifo) ∧
    (∃ v a, ((collectEntry entFifoBad initState).1).entries 3 = some v ∧ v.attr = some a ∧
      a.inode = 3 ∧ a.typ = .fifo ∧ a.nlink = 0 ∧ (0 : Nat) ≠ 1) :=
  ⟨rfl, c10_error_nonatomic.1 entFifoBad _ 9 rfl, rfl,
   c10_error_nonatomic.2 entFifoBad initState 0 3 .fifo rfl⟩

/-- Witness for C7 at `entFifoBad` (a fifo with wire link count 0). -/
theorem c7_witness :
    entFifoBad.attr = some (attrW 3 .fifo 0 0 0) ∧
    initState.entries 3 = none ∧
    ((collectEntry entFifoBad initState).2 =
        some (.invalidNlink (attrW 3 .fifo 0 0 0).nlink (attrW 3 .fifo 0 0 0).inode
          (attrW 3 .fifo 0 0 0).typ) ↔
      (attrW 3 .fifo 0 0 0).nlink ≠ 1) :=
  ⟨rfl, rfl, collectEntry_other_first_seen entFifoBad (attrW 3 .fifo 0 0 0) initState rfl
    (by decide) (by decide) rfl⟩

/-- Counterexample to C4 as stated: `entDupPreempted` contains two
occurrences of inode 7, both symlinks, yet `collectEntry` fails with the
invalid-nlink StructuralError for inode 4 (an earlier sibling), not with
a ConflictError naming inode 7. -/
theorem c4_conflict_counterexample :
    2 ≤ List.countP (isOccOf 7) (occEntries entDupPreempted.name entDupPreempted.parents
      entDupPreempted) ∧
    (∃ o ∈ occEntries entDupPreempted.name entDupPreempted.parents entDupPreempted,
      isOccOf 7 o ∧ isNonFileOcc o) ∧
    (collectEntry entDupPreempted initState).2 = some (.invalidNlink 2 4 .symlink) ∧
    (collectEntry entDupPreempted initState).2 ≠ some (.conflict 7) :=
  ⟨by decide, by decide, rfl, by decide⟩

/-- Counterexample to C5 as stated: after a successful run on
`entRootTrash`, the trash-root record's parent list is `[1]` (the root),
not `[TrashInode]` — the trash root is not its own parent. -/
theorem c5_trash_parent_counterexample :
    (collectEntry entRootTrash initState).2 = none ∧
    ((collectEntry entRootTrash initState).1.entries 1).map DumpedEntry.parents = some [1] ∧
    ((collectEntry entRootTrash initState).1.entries TrashInode).map DumpedEntry.parents
      = some [1] ∧
    ([1] : List Ino) ≠ [TrashInode] :=
  ⟨rfl, rfl, rfl, by decide⟩

theorem bumpDirNlink_storedNonFile (m : Ino → Option DumpedEntry) (i0 i : Ino)
    (v : DumpedEntry) (hv : m i = some v) (hnf : ∀ a, v.attr = some a → a.typ ≠ FType.file) :
    ∃ v2, bumpDirNlink m i0 i = some v2 ∧ ∀ a, v2.attr = some a → a.typ ≠ FType.file := by
  by_cases hj : i = i0
  · subst hj
    unfold bumpDirNlink
    rw [hv]
    cases ha : v.attr with
    | none =>
      simp only [ha]
      exact ⟨v, hv, hnf⟩
    | some a =>
      simp only [ha]
      refine ⟨v.withAttr { a with nlink := a.nlink + 1 }, updEntries_self _ _ _, ?_⟩
      intro a2 ha2
      simp at ha2
      rw [← ha2]
      exact hnf a ha
  · rw [bumpDirNlink_ne _ _ _ hj]
    exact ⟨v, hv, hnf⟩

theorem bumpDirNlink_none (m : Ino → Option DumpedEntry) (i0 i : Ino)
    (h : bumpDirNlink m i0 i = none) : m i = none := by
  cases hm : m i with
  | none => rfl
  | some v =>
    have := bumpDirNlink_isSome m i0 i (by rw [hm]; rfl)
    rw [h] at this
    cases this

theorem collectVisit_stored_nonfile (nm : GoStr) (ps : List Ino) (e : DumpedEntry)
    (st : CState) (i : Ino) (h : StoredNonFile st i) :
    StoredNonFile ((collectVisit nm ps e st).1) i := by
  obtain ⟨v, hv, hnf⟩ := h
  exact ⟨v, collectVisit_frame_nonfile nm ps e st i v hv hnf, hnf⟩

theorem collectChildren_stored_nonfile (i0 : Ino) (cs : List (GoStr × DumpedEntry))
    (st : CState) (i : Ino) (h : StoredNonFile st i) :
    StoredNonFile ((collectChildren i0 cs st).1) i := by
  induction cs generalizing st with
  | nil => exact h
  | cons p rest ih =>
    obtain ⟨cname, child⟩ := p
    simp only [collectChildren]
    cases hca : child.attr with
    | none =>
      simp only [hca]
      exact ih st h
    | some ca =>
      simp only [hca]
      obtain ⟨v, hv, hnf⟩ := h
      have h1 : StoredNonFile
          { st with entries := if ca.typ = .directory then bumpDirNlink st.entries i0 else st.entries } i := by
        show StoredNonFile _ i
        by_cases hdir : ca.typ = .directory
        · rw [if_pos hdir]  -- adjusts the state expression
          obtain ⟨v2, hv2, hnf2⟩ := bumpDirNlink_storedNonFile st.entries i0 i v hv hnf
          exact ⟨v2, hv2, hnf2⟩
        · rw [if_neg hdir]
          exact ⟨v, hv, hnf⟩
      have h2 := collectVisit_stored_nonfile cname [i0] child _ i h1
      cases hcv : collectVisit cname [i0] child
          { st with entries := if ca.typ = .directory then bumpDirNlink st.entries i0 else st.entries } with
      | mk st2 r =>
        rw [hcv] at h2
        cases r with
        | some err => simpa using h2
        | none =>
          simp only []
          exact ih st2 h2

mutual
theorem collectVisit_no_occ_nonfile (nm : GoStr) (ps : List Ino) (e : DumpedEntry)
    (st : CState) (hsucc : (collectVisit nm ps e st).2 = none) (i : Ino)
    (hsnf : StoredNonFile st i) (o : DumpedEntry) (ho : o ∈ occEntries nm ps e)
    (hoi : isOccOf i o = true) : False := by
  match e with
  | .mk nm0 ps0 none sy xa ch es => simp [occEntries] at ho
  | .mk nm0 ps0 (some a) sy xa ch es =>
    obtain ⟨v, hv, hnf⟩ := hsnf
    by_cases hai : a.inode = i
    · have hv2 : st.entries a.inode = some v := by rw [hai]; exact hv
      simp only [collectVisit, hv2] at hsucc
      cases hea : v.attr with
      | none =>
        simp only [hea] at hsucc
        cases hsucc
      | some ea =>
        simp only [hea] at hsucc
        have hcond : a.typ ≠ FType.file ∨ ea.typ ≠ FType.file := Or.inr (hnf ea hea)
        rw [if_pos hcond] at hsucc
        cases hsucc
    · have hine : i ≠ a.inode := fun hh => hai hh.symm
      simp only [occEntries] at ho
      rcases List.mem_cons.mp ho with rfl | hotail
      · simp [isOccOf, DumpedEntry.attr] at hoi
        exact hai hoi
      · by_cases hdir : a.typ = FType.directory
        · cases hx : st.entries a.inode with
          | some exist =>
            simp only [collectVisit, hx] at hsucc
            cases hea : exist.attr with
            | none =>
              simp only [hea] at hsucc
              cases hsucc
            | some ea =>
              simp only [hea] at hsucc
              have hcond : a.typ ≠ FType.file ∨ ea.typ ≠ FType.file :=
                Or.inl (by rw [hdir]; simp)
              rw [if_pos hcond] at hsucc
              cases hsucc
          | none =>
            simp only [collectVisit, hx] at hsucc
            have hfile : ¬a.typ = FType.file := by rw [hdir]; simp
            rw [if_neg hfile, if_pos hdir] at hsucc
            refine collectChildren_no_occ_nonfile a.inode es _ hsucc i ?_ o ?_ hoi
            · refine ⟨v, ?_, hnf⟩
              show updEntries _ a.inode _ i = some v
              rw [updEntries_ne _ _ _ _ hine]
              show updEntries _ a.inode _ i = some v
              rw [updEntries_ne _ _ _ _ hine]
              exact hv
            · simpa [hdir] using hotail
        · simp [hdir] at hotail

theorem collectChildren_no_occ_nonfile (i0 : Ino) (cs : List (GoStr × DumpedEntry))
    (st : CState) (hsucc : (collectChildren i0 cs st).2 = none) (i : Ino)
    (hsnf : StoredNonFile st i) (o : DumpedEntry) (ho : o ∈ occChildren i0 cs)
    (hoi : isOccOf i o = true) : False := by
  match cs with
  | [] => simp [occChildren] at ho
  | (cname, child) :: rest =>
    simp only [collectChildren] at hsucc
    simp only [occChildren] at ho
    cases hca : child.attr with
    | none =>
      simp only [hca] at hsucc ho
      rw [List.nil_append] at ho
      exact collectChildren_no_occ_nonfile i0 rest st hsucc i hsnf o ho hoi
    | some ca =>
      simp only [hca] at hsucc ho
      cases hcv : collectVisit cname [i0] child
          { st with entries := if ca.typ = .directory then bumpDirNlink st.entries i0 else st.entries } with
      | mk st2 r =>
        simp only [hcv] at hsucc
        cases r with
        | some err => cases hsucc
        | none =>
          obtain ⟨v, hv, hnf⟩ := hsnf
          have h1 : StoredNonFile
              { st with entries := if ca.typ = .directory then bumpDirNlink st.entries i0
                  else st.entries } i := by
            by_cases hdir : ca.typ = .directory
            · obtain ⟨v2, hv2, hnf2⟩ := bumpDirNlink_storedNonFile st.entries i0 i v hv hnf
              refine ⟨v2, ?_, hnf2⟩
              show (if ca.typ = .directory then bumpDirNlink st.entries i0 else st.entries) i
                  = some v2
              rw [if_pos hdir]
              exact hv2
            · refine ⟨v, ?_, hnf⟩
              show (if ca.typ = .directory then bumpDirNlink st.entries i0 else st.entries) i
                  = some v
              rw [if_neg hdir]
              exact hv
          rcases List.mem_append.mp ho with hoc | horest
          · exact collectVisit_no_occ_nonfile cname [i0] child _ (by rw [hcv]) i h1 o hoc hoi
          · have h2 := collectVisit_stored_nonfile cname [i0] child _ i h1
            rw [hcv] at h2
            exact collectChildren_no_occ_nonfile i0 rest st2 hsucc i h2 o horest hoi
end

mutual
theorem collectVisit_occ_present (nm : GoStr) (ps : List Ino) (e : DumpedEntry)
    (st : CState) (hsucc : (collectVisit nm ps e st).2 = none) (i : Ino)
    (o : DumpedEntry) (ho : o ∈ occEntries nm ps e) (hoi : isOccOf i o = true) :
    (((collectVisit nm ps e st).1).entries i).isSome := by
  match e with
  | .mk nm0 ps0 none sy xa ch es => simp [occEntries] at ho
  | .mk nm0 ps0 (some a) sy xa ch es =>
    simp only [occEntries] at ho
    rcases List.mem_cons.mp ho with rfl | hotail
    · simp [isOccOf, DumpedEntry.attr] at hoi
      subst hoi
      cases hx : st.entries a.inode with
      | some exist =>
        simp only [collectVisit, hx] at hsucc ⊢
        cases hea : exist.attr with
        | none =>
          simp only [hea] at hsucc
          cases hsucc
        | some ea =>
          simp only [hea] at hsucc ⊢
          by_cases hcond : a.typ ≠ FType.file ∨ ea.typ ≠ FType.file
          · rw [if_pos hcond] at hsucc
            cases hsucc
          · rw [if_neg hcond] at hsucc ⊢
            split
            · show (updEntries _ a.inode _ a.inode).isSome
              rw [updEntries_self]
              rfl
            · show (updEntries _ a.inode _ a.inode).isSome
              rw [updEntries_self]
              rfl
      | none =>
        simp only [collectVisit, hx] at hsucc ⊢
        by_cases hfile : a.typ = FType.file
        · rw [if_pos hfile]
          show (updEntries _ a.inode _ a.inode).isSome
          rw [updEntries_self]
          rfl
        · rw [if_neg hfile] at hsucc ⊢
          by_cases hdir : a.typ = FType.directory
          · rw [if_pos hdir] at hsucc ⊢
            refine collectChildren_keys_mono a.inode es _ a.inode ?_
            show (updEntries _ a.inode _ a.inode).isSome
            rw [updEntries_self]
            rfl
          · rw [if_neg hdir] at hsucc ⊢
            by_cases hnl : a.nlink ≠ 1
            · rw [if_pos hnl] at hsucc
              cases hsucc
            · rw [if_neg hnl]
              show (updEntries _ a.inode _ a.inode).isSome
              rw [updEntries_self]
              rfl
    · by_cases hdir : a.typ = FType.directory
      · cases hx : st.entries a.inode with
        | some exist =>
          simp only [collectVisit, hx] at hsucc
          cases hea : exist.attr with
          | none =>
            simp only [hea] at hsucc
            cases hsucc
          | some ea =>
            simp only [hea] at hsucc
            have hcond : a.typ ≠ FType.file ∨ ea.typ ≠ FType.file :=
              Or.inl (by rw [hdir]; simp)
            rw [if_pos hcond] at hsucc
            cases hsucc
        | none =>
          simp only [collectVisit, hx] at hsucc ⊢
          have hfile : ¬a.typ = FType.file := by rw [hdir]; simp
          rw [if_neg hfile, if_pos hdir] at hsucc ⊢
          exact collectChildren_occ_present a.inode es _ hsucc i o
            (by simpa [hdir] using hotail) hoi
      · simp [hdir] at hotail

theorem collectChildren_occ_present (i0 : Ino) (cs : List (GoStr × DumpedEntry))
    (st : CState) (hsucc : (collectChildren i0 cs st).2 = none) (i : Ino)
    (o : DumpedEntry) (ho : o ∈ occChildren i0 cs) (hoi : isOccOf i o = true) :
    (((collectChildren i0 cs st).1).entries i).isSome := by
  match cs with
  | [] => simp [occChildren] at ho
  | (cname, child) :: rest =>
    simp only [collectChildren] at hsucc ⊢
    simp only [occChildren] at ho
    cases hca : child.attr with
    | none =>
      simp only [hca] at hsucc ho ⊢
      rw [List.nil_append] at ho
      exact collectChildren_occ_present i0 rest st hsucc i o ho hoi
    | some ca =>
      simp only [hca] at hsucc ho ⊢
      cases hcv : collectVisit cname [i0] child
          { st with entries := if ca.typ = .directory then bumpDirNlink st.entries i0 else st.entries } with
      | mk st2 r =>
        simp only [hcv] at hsucc ⊢
        cases r with
        | some err => cases hsucc
        | none =>
          rcases List.mem_append.mp ho with hoc | horest
          · have h2 := collectVisit_occ_present cname [i0] child _ (by rw [hcv]) i o hoc hoi
            rw [hcv] at h2
            exact collectChildren_keys_mono i0 rest st2 i h2
          · exact collectChildren_occ_present i0 rest st2 hsucc i o horest hoi
end

mutual
theorem collectVisit_nonfile_occ_unique (nm : GoStr) (ps : List Ino) (e : DumpedEntry)
    (st : CState) (hsucc : (collectVisit nm ps e st).2 = none) (i : Ino)
    (o : DumpedEntry) (ho : o ∈ occEntries nm ps e) (hoi : isOccOf i o = true)
    (honf : isNonFileOcc o = true) :
    st.entries i = none ∧ List.countP (isOccOf i) (occEntries nm ps e) = 1 ∧
      StoredNonFile ((collectVisit nm ps e st).1) i := by
  match e with
  | .mk nm0 ps0 none sy xa ch es => simp [occEntries] at ho
  | .mk nm0 ps0 (some a) sy xa ch es =>
    simp only [occEntries] at ho ⊢
    rcases List.mem_cons.mp ho with rfl | hotail
    · simp [isOccOf, DumpedEntry.attr] at hoi
      simp [isNonFileOcc, DumpedEntry.attr] at honf
      subst hoi
      cases hx : st.entries a.inode with
      | some exist =>
        exfalso
        simp only [collectVisit, hx] at hsucc
        cases hea : exist.attr with
        | none =>
          simp only [hea] at hsucc
          cases hsucc
        | some ea =>
          simp only [hea] at hsucc
          rw [if_pos (Or.inl honf)] at hsucc
          cases hsucc
      | none =>
        refine ⟨rfl, ?_, ?_⟩
        · by_cases hdir : a.typ = FType.directory
          · simp only [collectVisit, hx] at hsucc
            have hfile : ¬a.typ = FType.file := honf
            rw [if_neg hfile, if_pos hdir] at hsucc
            rw [if_pos hdir]
            rw [List.countP_cons]
            have hz : List.countP (isOccOf a.inode) (occChildren a.inode es) = 0 := by
              rw [List.countP_eq_zero]
              intro o2 ho2 hoi2
              refine collectChildren_no_occ_nonfile a.inode es _ hsucc a.inode ?_ o2 ho2 hoi2
              exact ⟨_, updEntries_self _ _ _, by
                intro a2 ha2
                simp at ha2
                rw [← ha2]
                simp [hdir]⟩
            rw [hz]
            simp [isOccOf, DumpedEntry.attr]
          · rw [if_neg hdir]
            simp [isOccOf, DumpedEntry.attr]
        · by_cases hdir : a.typ = FType.directory
          · simp only [collectVisit, hx] at hsucc ⊢
            have hfile : ¬a.typ = FType.file := honf
            rw [if_neg hfile, if_pos hdir] at hsucc ⊢
            refine collectChildren_stored_nonfile a.inode es _ a.inode
              ⟨_, updEntries_self _ _ _, by
                intro a2 ha2
                simp at ha2
                rw [← ha2]
                simp [hdir]⟩
          · simp only [collectVisit, hx] at hsucc ⊢
            have hfile : ¬a.typ = FType.file := honf
            rw [if_neg hfile, if_neg hdir] at hsucc ⊢
            by_cases hnl : a.nlink ≠ 1
            · rw [if_pos hnl] at hsucc
              cases hsucc
            · rw [if_neg hnl]
              exact ⟨_, updEntries_self _ _ _, by
                intro a2 ha2
                simp [DumpedEntry.attr] at ha2
                rw [← ha2]
                exact honf⟩
    · by_cases hdir : a.typ = FType.directory
      · cases hx : st.entries a.inode with
        | some exist =>
          exfalso
          simp only [collectVisit, hx] at hsucc
          cases hea : exist.attr with
          | none =>
            simp only [hea] at hsucc
            cases hsucc
          | some ea =>
            simp only [hea] at hsucc
            rw [if_pos (Or.inl (by rw [hdir]; simp))] at hsucc
            cases hsucc
        | none =>
          by_cases hai : a.inode = i
          · exfalso
            simp only [collectVisit, hx] at hsucc
            have hfile : ¬a.typ = FType.file := by rw [hdir]; simp
            rw [if_neg hfile, if_pos hdir] at hsucc
            refine collectChildren_no_occ_nonfile a.inode es _ hsucc i ?_ o
              (by simpa [hdir] using hotail) hoi
            subst hai
            exact ⟨_, updEntries_self _ _ _, by
              intro a2 ha2
              simp at ha2
              rw [← ha2]
              simp [hdir]⟩
          · have hine : i ≠ a.inode := fun hh => hai hh.symm
            simp only [collectVisit, hx] at hsucc ⊢
            have hfile : ¬a.typ = FType.file := by rw [hdir]; simp
            rw [if_neg hfile, if_pos hdir] at hsucc
            rw [if_pos hdir, if_neg hfile, if_pos hdir]
            obtain ⟨h1, h2, h3⟩ := collectChildren_nonfile_occ_unique a.inode es _ hsucc i o
              (by simpa [hdir] using hotail) hoi honf
            refine ⟨?_, ?_, h3⟩
            · have h1x : updEntries _ a.inode _ i = none := h1
              rw [updEntries_ne _ _ _ _ hine] at h1x
              have h1y : updEntries _ a.inode _ i = none := h1x
              rw [updEntries_ne _ _ _ _ hine] at h1y
              exact h1y
            · rw [List.countP_cons]
              have hfalse : isOccOf i (DumpedEntry.mk nm ps (some a) sy xa ch es) = false := by
                simp [isOccOf, DumpedEntry.attr]
                exact hai
              rw [hfalse, h2]
              simp
      · have : o ∈ (if a.typ = FType.directory then occChildren a.inode es else []) := hotail
        rw [if_neg hdir] at this
        cases this

theorem collectChildren_nonfile_occ_unique (i0 : Ino) (cs : List (GoStr × DumpedEntry))
    (st : CState) (hsucc : (collectChildren i0 cs st).2 = none) (i : Ino)
    (o : DumpedEntry) (ho : o ∈ occChildren i0 cs) (hoi : isOccOf i o = true)
    (honf : isNonFileOcc o = true) :
    st.entries i = none ∧ List.countP (isOccOf i) (occChildren i0 cs) = 1 ∧
      StoredNonFile ((collectChildren i0 cs st).1) i := by
  match cs with
  | [] => simp [occChildren] at ho
  | (cname, child) :: rest =>
    simp only [collectChildren] at hsucc ⊢
    simp only [occChildren] at ho ⊢
    cases hca : child.attr with
    | none =>
      simp only [hca] at hsucc ho ⊢
      rw [List.nil_append] at ho
      obtain ⟨h1, h2, h3⟩ := collectChildren_nonfile_occ_unique i0 rest st hsucc i o ho hoi honf
      refine ⟨h1, ?_, h3⟩
      rw [List.nil_append]
      exact h2
    | some ca =>
      simp only [hca] at hsucc ho ⊢
      cases hcv : collectVisit cname [i0] child
          { st with entries := if ca.typ = .directory then bumpDirNlink st.entries i0 else st.entries } with
      | mk st2 r =>
        simp only [hcv] at hsucc ⊢
        cases r with
        | some err => cases hsucc
        | none =>
          rcases List.mem_append.mp ho with hoc | horest
          · obtain ⟨h1, h2, h3⟩ := collectVisit_nonfile_occ_unique cname [i0] child _
              (by rw [hcv]) i o hoc hoi honf
            rw [hcv] at h3
            refine ⟨?_, ?_, collectChildren_stored_nonfile i0 rest st2 i h3⟩
            · have hb0 : (if ca.typ = .directory then bumpDirNlink st.entries i0
                  else st.entries) i = none := h1
              by_cases hdir2 : ca.typ = .directory
              · rw [if_pos hdir2] at hb0
                exact bumpDirNlink_none _ _ _ hb0
              · rw [if_neg hdir2] at hb0
                exact hb0
            · rw [List.countP_append, h2]
              have hz : List.countP (isOccOf i) (occChildren i0 rest) = 0 := by
                rw [List.countP_eq_zero]
                intro o2 ho2 hoi2
                exact collectChildren_no_occ_nonfile i0 rest st2 hsucc i h3 o2 ho2 hoi2
              rw [hz]
          · obtain ⟨h1, h2, h3⟩ := collectChildren_nonfile_occ_unique i0 rest st2 hsucc i o
              horest hoi honf
            have hst1 : (if ca.typ = .directory then bumpDirNlink st.entries i0
                else st.entries) i = none := by
              cases hs1 : (if ca.typ = .directory then bumpDirNlink st.entries i0
                  else st.entries) i with
              | none => rfl
              | some v =>
                exfalso
                have hm := collectVisit_keys_mono cname [i0] child
                  { st with entries := if ca.typ = .directory then bumpDirNlink st.entries i0
                      else st.entries } i (by
                    show ((if ca.typ = .directory then bumpDirNlink st.entries i0 else st.entries) i).isSome
                    rw [hs1]
                    rfl)
                rw [hcv] at hm
                rw [h1] at hm
                cases hm
            refine ⟨?_, ?_, h3⟩
            · by_cases hdir2 : ca.typ = .directory
              · rw [if_pos hdir2] at hst1
                exact bumpDirNlink_none _ _ _ hst1
              · rw [if_neg hdir2] at hst1
                exact hst1
            · rw [List.countP_append, h2]
              have hz : List.countP (isOccOf i) (occEntries cname [i0] child) = 0 := by
                rw [List.countP_eq_zero]
                intro o2 ho2 hoi2
                have hp := collectVisit_occ_present cname [i0] child _ (by rw [hcv]) i o2 ho2 hoi2
                rw [hcv] at hp
                rw [h1] at hp
                cases hp
              rw [hz]
end

/-- Claim C4 (amended): an input tree containing two or more occurrences of
one inode of which at least one is not a regular file always makes
`collectEntry` fail — but not necessarily with a ConflictError for that
inode, since an earlier entry can fail first.  When the repeated
occurrence itself is visited (its inode already in the table) with either
side not a regular file, the error is exactly the ConflictError naming
that inode. -/
theorem c4_amended_duplicate_nonfile :
    (∀ e st i, 2 ≤ List.countP (isOccOf i) (occEntries e.name e.parents e) →
      (∃ o ∈ occEntries e.name e.parents e, isOccOf i o = true ∧ isNonFileOcc o = true) →
      (collectEntry e st).2 ≠ none) ∧
    (∀ e a st ex exa, e.attr = some a → st.entries a.inode = some ex → ex.attr = some exa →
      (a.typ ≠ FType.file ∨ exa.typ ≠ FType.file) →
      (collectEntry e st).2 = some (.conflict a.inode)) := by
  constructor
  · rintro e st i h2 ⟨o, ho, hoi, honf⟩ hsucc
    obtain ⟨-, hcnt, -⟩ :=
      collectVisit_nonfile_occ_unique e.name e.parents e st hsucc i o ho hoi honf
    omega
  · intro e a st ex exa ha hex hexa hnf
    exact collectEntry_conflict_on_repeat e a st ex exa ha hex hexa hnf

/-- Witness for the amended C4: the duplicated symlink inode 7 makes the
whole run fail, and a direct repeat visit of inode 7 over a stored
symlink returns the ConflictError naming 7. -/
theorem c4_amended_witness :
    2 ≤ List.countP (isOccOf 7)
      (occEntries entDupSymlink.name entDupSymlink.parents entDupSymlink) ∧
    (collectEntry entDupSymlink initState).2 ≠ none ∧
    (collectEntry (linkW 7 1) stateLink7).2 = some (.conflict 7) :=
  ⟨by decide,
   c4_amended_duplicate_nonfile.1 entDupSymlink initState 7 (by decide) (by decide),
   c4_amended_duplicate_nonfile.2 (linkW 7 1) (attrW 7 FType.symlink 1 0 0) stateLink7
     (linkW 7 1) (attrW 7 FType.symlink 1 0 0) rfl rfl rfl (Or.inl (by decide))⟩

theorem withAttr_own (v : DumpedEntry) (a : DumpedAttr) (h : v.attr = some a) :
    v.withAttr a = v := by
  cases v with
  | mk nm ps oa sy xa ch es =>
    simp [DumpedEntry.attr] at h
    simp [DumpedEntry.withAttr, h]

theorem bumpDirNlink_self (m : Ino → Option DumpedEntry) (i0 : Ino) (v : DumpedEntry)
    (a : DumpedAttr) (hm : m i0 = some v) (ha : v.attr = some a) :
    bumpDirNlink m i0 = updEntries m i0 (v.withAttr { a with nlink := a.nlink + 1 }) := by
  unfold bumpDirNlink
  rw [hm]
  simp only [ha]

theorem bumpDirNlink_none_of (m : Ino → Option DumpedEntry) (i0 i : Ino)
    (h : m i = none) : bumpDirNlink m i0 i = none := by
  by_cases hi : i = i0
  · subst hi
    unfold bumpDirNlink
    rw [h]
    exact h
  · rw [bumpDirNlink_ne _ _ _ hi]
    exact h

theorem subdirCount_cons_dir (cname : GoStr) (child : DumpedEntry)
    (rest : List (GoStr × DumpedEntry)) (ca : DumpedAttr) (hca : child.attr = some ca)
    (hdir : ca.typ = FType.directory) :
    subdirCount ((cname, child) :: rest) = subdirCount rest + 1 := by
  simp [subdirCount, List.countP_cons, hca, hdir]

theorem subdirCount_cons_nondir (cname : GoStr) (child : DumpedEntry)
    (rest : List (GoStr × DumpedEntry)) (ca : DumpedAttr) (hca : child.attr = some ca)
    (hdir : ¬ca.typ = FType.directory) :
    subdirCount ((cname, child) :: rest) = subdirCount rest := by
  simp [subdirCount, List.countP_cons, hca, hdir]

theorem subdirCount_cons_none (cname : GoStr) (child : DumpedEntry)
    (rest : List (GoStr × DumpedEntry)) (hca : child.attr = none) :
    subdirCount ((cname, child) :: rest) = subdirCount rest := by
  simp [subdirCount, List.countP_cons, hca]

theorem collectChildren_bump_count (i0 : Ino) (cs : List (GoStr × DumpedEntry)) (st : CState)
    (hsucc : (collectChildren i0 cs st).2 = none)
    (v : DumpedEntry) (a : DumpedAttr) (hv : st.entries i0 = some v) (ha : v.attr = some a)
    (hnf : a.typ ≠ FType.file) :
    ((collectChildren i0 cs st).1).entries i0 =
      some (v.withAttr { a with nlink := a.nlink + subdirCount cs }) := by
  induction cs generalizing st v a with
  | nil =>
    rw [show subdirCount ([] : List (GoStr × DumpedEntry)) = 0 from rfl, Nat.add_zero,
      withAttr_own v a ha]
    exact hv
  | cons p rest ih =>
    obtain ⟨cname, child⟩ := p
    simp only [collectChildren] at hsucc ⊢
    cases hca : child.attr with
    | none =>
      simp only [hca] at hsucc ⊢
      rw [subdirCount_cons_none cname child rest hca]
      exact ih st hsucc v a hv ha hnf
    | some ca =>
      simp only [hca] at hsucc ⊢
      cases hcv : collectVisit cname [i0] child
          { st with entries := if ca.typ = .directory then bumpDirNlink st.entries i0 else st.entries } with
      | mk st2 r =>
        simp only [hcv] at hsucc ⊢
        cases r with
        | some err => cases hsucc
        | none =>
          by_cases hdir : ca.typ = .directory
          · have hv1 : ({ st with entries := if ca.typ = .directory then bumpDirNlink st.entries i0
                else st.entries } : CState).entries i0 =
                some (v.withAttr { a with nlink := a.nlink + 1 }) := by
              show (if ca.typ = .directory then bumpDirNlink st.entries i0 else st.entries) i0 = _
              rw [if_pos hdir, bumpDirNlink_self st.entries i0 v a hv ha]
              exact updEntries_self _ _ _
            have hfr := collectVisit_frame_nonfile cname [i0] child
              { st with entries := if ca.typ = .directory then bumpDirNlink st.entries i0
                  else st.entries }
              i0 (v.withAttr { a with nlink := a.nlink + 1 }) hv1
              (by
                intro a2 ha2
                simp at ha2
                rw [← ha2]
                exact hnf)
            rw [hcv] at hfr
            have hih := ih st2 hsucc (v.withAttr { a with nlink := a.nlink + 1 })
              { a with nlink := a.nlink + 1 } hfr (by simp) hnf
            rw [hih, withAttr_withAttr]
            rw [subdirCount_cons_dir cname child rest ca hca hdir]
            have harith : { a with nlink := a.nlink + 1 } =
                ({ a with nlink := a.nlink + 1 } : DumpedAttr) := rfl
            show some (v.withAttr { a with nlink := a.nlink + 1 + subdirCount rest }) = _
            have : a.nlink + 1 + subdirCount rest = a.nlink + (subdirCount rest + 1) := by omega
            rw [this]
          · have hv1 : ({ st with entries := if ca.typ = .directory then bumpDirNlink st.entries i0
                else st.entries } : CState).entries i0 = some v := by
              show (if ca.typ = .directory then bumpDirNlink st.entries i0 else st.entries) i0 = _
              rw [if_neg hdir]
              exact hv
            have hfr := collectVisit_frame_nonfile cname [i0] child
              { st with entries := if ca.typ = .directory then bumpDirNlink st.entries i0
                  else st.entries }
              i0 v hv1
              (by
                intro a2 ha2
                rw [ha] at ha2
                rw [← Option.some.inj ha2]
                exact hnf)
            rw [hcv] at hfr
            rw [subdirCount_cons_nondir cname child rest ca hca hdir]
            exact ih st2 hsucc v a hfr ha hnf

mutual
theorem collectVisit_new_dir_record (nm : GoStr) (ps : List Ino) (e : DumpedEntry) (st : CState)
    (hsucc : (collectVisit nm ps e st).2 = none) (i : Ino) (hfresh : st.entries i = none)
    (v : DumpedEntry) (hv : ((collectVisit nm ps e st).1).entries i = some v)
    (a : DumpedAttr) (hva : v.attr = some a) (hdirv : a.typ = FType.directory) :
    a.nlink = 2 + subdirCount v.entries ∧ ((i = 1 ∨ i = TrashInode) → v.parents = [1]) := by
  match e with
  | .mk nm0 ps0 none sy xa ch es => cases hsucc
  | .mk nm0 ps0 (some a0) sy xa ch es =>
    simp only [collectVisit] at hsucc hv
    cases hx : st.entries a0.inode with
    | some exist =>
      simp only [hx] at hsucc hv
      have hine : i ≠ a0.inode := by
        intro hh
        rw [hh, hx] at hfresh
        cases hfresh
      cases hea : exist.attr with
      | none =>
        simp only [hea] at hsucc
        cases hsucc
      | some ea =>
        simp only [hea] at hsucc hv
        by_cases hcond : a0.typ ≠ FType.file ∨ ea.typ ≠ FType.file
        · rw [if_pos hcond] at hsucc
          cases hsucc
        · rw [if_neg hcond] at hsucc hv
          exfalso
          by_cases hct : ctimeKey ea < ctimeKey a0
          · rw [if_pos hct] at hv
            have hvx : updEntries _ a0.inode _ i = some v := hv
            rw [updEntries_ne _ _ _ _ hine] at hvx
            have hvy : updEntries _ a0.inode _ i = some v := hvx
            rw [updEntries_ne _ _ _ _ hine] at hvy
            rw [hfresh] at hvy
            cases hvy
          · rw [if_neg hct] at hv
            have hvx : updEntries _ a0.inode _ i = some v := hv
            rw [updEntries_ne _ _ _ _ hine] at hvx
            rw [hfresh] at hvx
            cases hvx
    | none =>
      simp only [hx] at hsucc hv
      by_cases hfile : a0.typ = FType.file
      · rw [if_pos hfile] at hsucc hv
        by_cases hii : i = a0.inode
        · exfalso
          rw [← hii] at hv
          have hvx : updEntries _ i _ i = some v := hv
          rw [updEntries_self] at hvx
          have hveq := Option.some.inj hvx
          rw [← hveq] at hva
          simp at hva
          rw [← hva] at hdirv
          rw [hfile] at hdirv
          cases hdirv
        · exfalso
          have hvx : updEntries _ a0.inode _ i = some v := hv
          rw [updEntries_ne _ _ _ _ hii] at hvx
          have hvy : updEntries _ a0.inode _ i = some v := hvx
          rw [updEntries_ne _ _ _ _ hii] at hvy
          rw [hfresh] at hvy
          cases hvy
      · rw [if_neg hfile] at hsucc hv
        by_cases hdir0 : a0.typ = FType.directory
        · rw [if_pos hdir0] at hsucc hv
          by_cases hii : i = a0.inode
          · rw [hii] at hv ⊢
            have hbc := collectChildren_bump_count a0.inode es _ hsucc _
              { a0 with nlink := 2 }
              (by
                show updEntries _ a0.inode _ a0.inode = _
                exact updEntries_self _ _ _)
              (by simp)
              (by
                show a0.typ ≠ FType.file
                exact hfile)
            rw [hv] at hbc
            have hveq := Option.some.inj hbc
            constructor
            · have hae : a = { a0 with nlink := 2 + subdirCount es } := by
                have := hva
                rw [hveq] at this
                rw [withAttr_withAttr] at this
                simp at this
                rw [← this]
              have hent : v.entries = es := by
                rw [hveq, withAttr_withAttr]
                by_cases hroot : a0.inode = 1 ∨ a0.inode = TrashInode
                · rw [if_pos hroot]
                  simp [DumpedEntry.entries, DumpedEntry.withParents, DumpedEntry.withAttr]
                · rw [if_neg hroot]
                  simp [DumpedEntry.entries, DumpedEntry.withAttr]
              rw [hae, hent]
            · intro hroot
              rw [hveq, withAttr_withAttr, if_pos hroot]
              simp [DumpedEntry.parents, DumpedEntry.withParents, DumpedEntry.withAttr]
          · have hine : i ≠ a0.inode := hii
            refine collectChildren_new_dir_record a0.inode es _ hsucc ?_ i ?_ v hv a hva hdirv
            · show (updEntries _ a0.inode _ a0.inode).isSome
              rw [updEntries_self]
              rfl
            · show updEntries _ a0.inode _ i = none
              rw [updEntries_ne _ _ _ _ hine]
              show updEntries _ a0.inode _ i = none
              rw [updEntries_ne _ _ _ _ hine]
              exact hfresh
        · rw [if_neg hdir0] at hsucc hv
          by_cases hnl : a0.nlink ≠ 1
          · rw [if_pos hnl] at hsucc
            cases hsucc
          · rw [if_neg hnl] at hsucc hv
            exfalso
            by_cases hii : i = a0.inode
            · rw [← hii] at hv
              have hvx : updEntries _ i _ i = some v := hv
              rw [updEntries_self] at hvx
              have hveq := Option.some.inj hvx
              rw [← hveq] at hva
              have : a0 = a := by
                have := hva
                simp [DumpedEntry.attr] at this
                exact this
              rw [← this] at hdirv
              exact hdir0 hdirv
            · have hvx : updEntries _ a0.inode _ i = some v := hv
              rw [updEntries_ne _ _ _ _ hii] at hvx
              rw [hfresh] at hvx
              cases hvx

theorem collectChildren_new_dir_record (i0 : Ino) (cs : List (GoStr × DumpedEntry)) (st : CState)
    (hsucc : (collectChildren i0 cs st).2 = none) (hsome0 : (st.entries i0).isSome)
    (i : Ino) (hfresh : st.entries i = none)
    (v : DumpedEntry) (hv : ((collectChildren i0 cs st).1).entries i = some v)
    (a : DumpedAttr) (hva : v.attr = some a) (hdirv : a.typ = FType.directory) :
    a.nlink = 2 + subdirCount v.entries ∧ ((i = 1 ∨ i = TrashInode) → v.parents = [1]) := by
  match cs with
  | [] =>
    exfalso
    simp only [collectChildren] at hv
    rw [hv] at hfresh
    cases hfresh
  | (cname, child) :: rest =>
    simp only [collectChildren] at hsucc hv
    cases hca : child.attr with
    | none =>
      simp only [hca] at hsucc hv
      exact collectChildren_new_dir_record i0 rest st hsucc hsome0 i hfresh v hv a hva hdirv
    | some ca =>
      simp only [hca] at hsucc hv
      cases hcv : collectVisit cname [i0] child
          { st with entries := if ca.typ = .directory then bumpDirNlink st.entries i0 else st.entries } with
      | mk st2 r =>
        simp only [hcv] at hsucc hv
        cases r with
        | some err => cases hsucc
        | none =>
          have hine0 : i ≠ i0 := by
            intro hh
            rw [hh] at hfresh
            rw [hfresh] at hsome0
            cases hsome0
          have hfr1 : ({ st with entries := if ca.typ = .directory then bumpDirNlink st.entries i0
              else st.entries } : CState).entries i = none := by
            show (if ca.typ = .directory then bumpDirNlink st.entries i0 else st.entries) i = none
            split
            · exact bumpDirNlink_none_of _ _ _ hfresh
            · exact hfresh
          have hsome1 : (({ st with entries := if ca.typ = .directory then bumpDirNlink st.entries i0
              else st.entries } : CState).entries i0).isSome := by
            show ((if ca.typ = .directory then bumpDirNlink st.entries i0 else st.entries) i0).isSome
            split
            · exact bumpDirNlink_isSome _ _ _ hsome0
            · exact hsome0
          cases hs2 : st2.entries i with
          | some w =>
            cases hwa : w.attr with
            | none =>
              have hfr := collectChildren_frame_nonfile i0 rest st2 i w hs2
                (by
                  intro a2 ha2
                  rw [hwa] at ha2
                  cases ha2) hine0
              rw [hv] at hfr
              have : v = w := Option.some.inj hfr
              rw [this, hwa] at hva
              cases hva
            | some wa =>
              by_cases hwf : wa.typ = FType.file
              · exfalso
                obtain ⟨v2, a2, hv2, ha2, ht2⟩ :=
                  collectChildren_file_stays i0 rest st2 i w wa hs2 hwa hwf
                rw [hv] at hv2
                have : v = v2 := Option.some.inj hv2
                rw [← this] at ha2
                rw [hva] at ha2
                have : a = a2 := Option.some.inj ha2
                rw [← this] at ht2
                rw [hdirv] at ht2
                cases ht2
              · have hfr := collectChildren_frame_nonfile i0 rest st2 i w hs2
                  (by
                    intro a2 ha2
                    rw [hwa] at ha2
                    rw [← Option.some.inj ha2]
                    exact hwf) hine0
                rw [hv] at hfr
                have hvw : v = w := Option.some.inj hfr
                subst hvw
                exact collectVisit_new_dir_record cname [i0] child _ (by rw [hcv]) i hfr1 v
                  (by rw [hcv]; exact hs2) a hva hdirv
          | none =>
            have hsome2 : (st2.entries i0).isSome := by
              have := collectVisit_keys_mono cname [i0] child
                { st with entries := if ca.typ = .directory then bumpDirNlink st.entries i0
                    else st.entries } i0 hsome1
              rw [hcv] at this
              exact this
            exact collectChildren_new_dir_record i0 rest st2 hsucc hsome2 i hs2 v hv a hva hdirv
end

/-- Claim C3: after a successful `collectEntry` run started on an empty
table, every directory record in the output table has link count exactly
`2 + ` the number of its attr-bearing direct subdirectory children,
whatever nlink value the wire form carried. -/
theorem c3_directory_nlink (e : DumpedEntry) (st : CState)
    (hinit : ∀ j, st.entries j = none)
    (hsucc : (collectEntry e st).2 = none)
    (i : Ino) (v : DumpedEntry) (hv : ((collectEntry e st).1).entries i = some v) :
    dirNlinkLaw v := by
  intro a hva hdir
  simp only [collectEntry] at hsucc hv
  exact (collectVisit_new_dir_record e.name e.parents e st hsucc i (hinit i) v hv a hva hdir).1

theorem c3_witness :
    (collectEntry entRootTrash initState).2 = none ∧
    ((collectEntry entRootTrash initState).1).entries 1 =
      some (DumpedEntry.mk [] [1] (some (attrW 1 .directory 3 5 0)) [] [] []
        [([116], dirW TrashInode [])]) ∧
    dirNlinkLaw (DumpedEntry.mk [] [1] (some (attrW 1 .directory 3 5 0)) [] [] []
        [([116], dirW TrashInode [])]) :=
  ⟨rfl, rfl, c3_directory_nlink entRootTrash initState (fun _ => rfl) rfl 1 _ rfl⟩

/-- Claim C5 (amended): after a successful `collectEntry` run started on an
empty table, the canonical directory records of the root inode and of the
trash-root inode both carry the parent list `[1]` — the root is its own
top-level parent, but the trash root's recorded parent is the root inode,
not the trash root itself. -/
theorem c5_amended_root_trash_parent (e : DumpedEntry) (st : CState)
    (hinit : ∀ j, st.entries j = none)
    (hsucc : (collectEntry e st).2 = none)
    (i : Ino) (hroot : i = 1 ∨ i = TrashInode)
    (v : DumpedEntry) (hv : ((collectEntry e st).1).entries i = some v)
    (a : DumpedAttr) (hva : v.attr = some a) (hdir : a.typ = FType.directory) :
    v.parents = [1] := by
  simp only [collectEntry] at hsucc hv
  exact (collectVisit_new_dir_record e.name e.parents e st hsucc i (hinit i) v hv a hva hdir).2
    hroot

theorem c5_amended_witness :
    (collectEntry entRootTrash initState).2 = none ∧
    ((collectEntry entRootTrash initState).1).entries TrashInode =
      some (DumpedEntry.mk [116] [1] (some (attrW TrashInode .directory 2 5 0)) [] [] [] []) ∧
    (DumpedEntry.mk [116] [1] (some (attrW TrashInode .directory 2 5 0)) [] [] []
      [] : DumpedEntry).parents = [1] :=
  ⟨rfl, rfl,
    c5_amended_root_trash_parent entRootTrash initState (fun _ => rfl) rfl TrashInode
      (Or.inr rfl) _ rfl (attrW TrashInode .directory 2 5 0) rfl rfl⟩

theorem skippedChildren_append (xs ys : List (GoStr × DumpedEntry)) :
    skippedChildren (xs ++ ys) = skippedChildren xs + skippedChildren ys := by
  induction xs with
  | nil => simp [skippedChildren]
  | cons p rest ih =>
    obtain ⟨nm, c⟩ := p
    simp only [List.cons_append, skippedChildren]
    have ih' : skippedChildren (rest.append ys) = skippedChildren rest + skippedChildren ys := ih
    omega

theorem collectChildren_skip_middle (i0 : Ino) (cs₁ cs₂ : List (GoStr × DumpedEntry))
    (nm : GoStr) (c : DumpedEntry) (hc : c.attr = none) :
    ∀ st, collectChildren i0 (cs₁ ++ (nm, c) :: cs₂) st = collectChildren i0 (cs₁ ++ cs₂) st := by
  induction cs₁ with
  | nil =>
    intro st
    simp only [List.nil_append, collectChildren, hc]
  | cons p rest ih =>
    intro st
    obtain ⟨cn, cc⟩ := p
    simp only [List.cons_append, collectChildren]
    cases hca : cc.attr with
    | none =>
      simp only [hca]
      exact ih st
    | some ca =>
      simp only [hca]
      cases hcv : collectVisit cn [i0] cc
          { st with entries := if ca.typ = .directory then bumpDirNlink st.entries i0 else st.entries } with
      | mk st2 r =>
        cases r with
        | some err => rfl
        | none => exact ih st2

mutual
theorem collectVisit_totals (nm : GoStr) (ps : List Ino) (e : DumpedEntry) (st : CState)
    (hsucc : (collectVisit nm ps e st).2 = none) :
    ((collectVisit nm ps e st).1).total = st.total + totalOf e ∧
    ((collectVisit nm ps e st).1).current = st.current + currentOf e := by
  match e with
  | .mk nm0 ps0 none sy xa ch es => cases hsucc
  | .mk nm0 ps0 (some a0) sy xa ch es =>
    simp only [collectVisit] at hsucc ⊢
    cases hx : st.entries a0.inode with
    | some exist =>
      simp only [hx] at hsucc ⊢
      cases hea : exist.attr with
      | none =>
        simp only [hea] at hsucc
        cases hsucc
      | some ea =>
        simp only [hea] at hsucc ⊢
        by_cases hcond : a0.typ ≠ FType.file ∨ ea.typ ≠ FType.file
        · rw [if_pos hcond] at hsucc
          cases hsucc
        · rw [if_neg hcond] at hsucc ⊢
          push_neg at hcond
          obtain ⟨hft, _⟩ := hcond
          by_cases hct : ctimeKey ea < ctimeKey a0
          · rw [if_pos hct]
            constructor
            · show st.total + (if a0.typ = FType.directory then es.length else 0) =
                st.total + totalOf (DumpedEntry.mk nm0 ps0 (some a0) sy xa ch es)
              simp [totalOf, hft]
            · show st.current + 1 =
                st.current + currentOf (DumpedEntry.mk nm0 ps0 (some a0) sy xa ch es)
              simp [currentOf, hft]
          · rw [if_neg hct]
            constructor
            · show st.total + (if a0.typ = FType.directory then es.length else 0) =
                st.total + totalOf (DumpedEntry.mk nm0 ps0 (some a0) sy xa ch es)
              simp [totalOf, hft]
            · show st.current + 1 =
                st.current + currentOf (DumpedEntry.mk nm0 ps0 (some a0) sy xa ch es)
              simp [currentOf, hft]
    | none =>
      simp only [hx] at hsucc ⊢
      by_cases hfile : a0.typ = FType.file
      · rw [if_pos hfile] at hsucc ⊢
        constructor
        · show st.total + (if a0.typ = FType.directory then es.length else 0) =
            st.total + totalOf (DumpedEntry.mk nm0 ps0 (some a0) sy xa ch es)
          simp [totalOf, hfile]
        · show st.current + 1 =
            st.current + currentOf (DumpedEntry.mk nm0 ps0 (some a0) sy xa ch es)
          simp [currentOf, hfile]
      · rw [if_neg hfile] at hsucc ⊢
        by_cases hdir : a0.typ = FType.directory
        · rw [if_pos hdir] at hsucc ⊢
          obtain ⟨h1, h2⟩ := collectChildren_totals a0.inode es _ hsucc
          constructor
          · have htot : totalOf (DumpedEntry.mk nm0 ps0 (some a0) sy xa ch es) =
                es.length + totalChildren es := by
              simp [totalOf, hdir]
            rw [h1, htot]
            show st.total + (if a0.typ = FType.directory then es.length else 0) +
              totalChildren es = st.total + (es.length + totalChildren es)
            rw [if_pos hdir]
            omega
          · have hcur : currentOf (DumpedEntry.mk nm0 ps0 (some a0) sy xa ch es) =
                1 + currentChildren es := by
              simp [currentOf, hdir]
            rw [h2, hcur]
            show st.current + 1 + currentChildren es = st.current + (1 + currentChildren es)
            omega
        · rw [if_neg hdir] at hsucc ⊢
          by_cases hnl : a0.nlink ≠ 1
          · rw [if_pos hnl] at hsucc
            cases hsucc
          · rw [if_neg hnl] at hsucc ⊢
            constructor
            · show st.total + (if a0.typ = FType.directory then es.length else 0) =
                st.total + totalOf (DumpedEntry.mk nm0 ps0 (some a0) sy xa ch es)
              simp [totalOf, hdir]
            · show st.current + 1 =
                st.current + currentOf (DumpedEntry.mk nm0 ps0 (some a0) sy xa ch es)
              simp [currentOf, hdir]

theorem collectChildren_totals (i0 : Ino) (cs : List (GoStr × DumpedEntry)) (st : CState)
    (hsucc : (collectChildren i0 cs st).2 = none) :
    ((collectChildren i0 cs st).1).total = st.total + totalChildren cs ∧
    ((collectChildren i0 cs st).1).current = st.current + currentChildren cs := by
  match cs with
  | [] =>
    constructor
    · show st.total = st.total + totalChildren []
      simp [totalChildren]
    · show st.current = st.current + currentChildren []
      simp [currentChildren]
  | (cname, child) :: rest =>
    simp only [collectChildren] at hsucc ⊢
    cases hca : child.attr with
    | none =>
      simp only [hca] at hsucc ⊢
      obtain ⟨h1, h2⟩ := collectChildren_totals i0 rest st hsucc
      constructor
      · rw [h1]
        simp [totalChildren, hca]
      · rw [h2]
        simp [currentChildren, hca]
    | some ca =>
      simp only [hca] at hsucc ⊢
      cases hcv : collectVisit cname [i0] child
          { st with entries := if ca.typ = .directory then bumpDirNlink st.entries i0 else st.entries } with
      | mk st2 r =>
        simp only [hcv] at hsucc ⊢
        cases r with
        | some err => cases hsucc
        | none =>
          have hvt := collectVisit_totals cname [i0] child
            { st with entries := if ca.typ = .directory then bumpDirNlink st.entries i0
                else st.entries }
            (by rw [hcv])
          rw [hcv] at hvt
          obtain ⟨hv1, hv2⟩ := hvt
          obtain ⟨h1, h2⟩ := collectChildren_totals i0 rest st2 hsucc
          constructor
          · rw [h1, hv1]
            have : totalChildren ((cname, child) :: rest) = totalOf child + totalChildren rest := by
              simp [totalChildren, hca]
            rw [this]
            show st.total + totalOf child + totalChildren rest =
              st.total + (totalOf child + totalChildren rest)
            omega
          · rw [h2, hv2]
            have : currentChildren ((cname, child) :: rest) =
                currentOf child + currentChildren rest := by
              simp [currentChildren, hca]
            rw [this]
            show st.current + currentOf child + currentChildren rest =
              st.current + (currentOf child + currentChildren rest)
            omega
end

mutual
theorem totalOf_identity (e : DumpedEntry) (a : DumpedAttr) (ha : e.attr = some a) :
    totalOf e + 1 = currentOf e + skippedOf e := by
  match e with
  | .mk nm0 ps0 none sy xa ch es => simp [DumpedEntry.attr] at ha
  | .mk nm0 ps0 (some a0) sy xa ch es =>
    by_cases hdir : a0.typ = FType.directory
    · have h := totalChildren_identity es
      simp only [totalOf, currentOf, skippedOf, if_pos hdir]
      omega
    · simp [totalOf, currentOf, skippedOf, hdir]

theorem totalChildren_identity (cs : List (GoStr × DumpedEntry)) :
    totalChildren cs + cs.length = currentChildren cs + skippedChildren cs := by
  match cs with
  | [] => simp [totalChildren, currentChildren, skippedChildren]
  | (cname, child) :: rest =>
    have hrest := totalChildren_identity rest
    cases hca : child.attr with
    | none =>
      simp only [totalChildren, currentChildren, skippedChildren, hca, List.length_cons]
      omega
    | some ca =>
      have hc := totalOf_identity child ca hca
      simp only [totalChildren, currentChildren, skippedChildren, hca, List.length_cons]
      omega
end

/-- Claim C8: an attr-less child entry is skipped rather than fatal — the
child loop's outcome on a list containing it is identical (same table,
same counters, same error) to the outcome without it, so the remaining
siblings and the rest of the tree are still collected; each such child
adds exactly one to the skipped-entry count; and a successful run started
on zeroed progress counters surfaces the skip count to the caller as the
counter gap `total + 1 - current`. -/
theorem c8_attrless_child_skipped (i0 : Ino) (cs₁ cs₂ : List (GoStr × DumpedEntry))
    (nm : GoStr) (c : DumpedEntry) (st : CState) (hc : c.attr = none)
    (e : DumpedEntry) (a : DumpedAttr) (ha : e.attr = some a)
    (st0 : CState) (h0t : st0.total = 0) (h0c : st0.current = 0)
    (hsucc : (collectEntry e st0).2 = none) :
    collectChildren i0 (cs₁ ++ (nm, c) :: cs₂) st = collectChildren i0 (cs₁ ++ cs₂) st ∧
    skippedChildren (cs₁ ++ (nm, c) :: cs₂) = skippedChildren (cs₁ ++ cs₂) + 1 ∧
    ((collectEntry e st0).1).total + 1 = ((collectEntry e st0).1).current + skippedOf e := by
  refine ⟨collectChildren_skip_middle i0 cs₁ cs₂ nm c hc st, ?_, ?_⟩
  · rw [skippedChildren_append, skippedChildren_append]
    have h1 : skippedChildren ((nm, c) :: cs₂) = 1 + skippedChildren cs₂ := by
      simp [skippedChildren, hc]
    rw [h1]
    omega
  · simp only [collectEntry] at hsucc ⊢
    obtain ⟨h1, h2⟩ := collectVisit_totals e.name e.parents e st0 hsucc
    rw [h1, h2, h0t, h0c]
    have := totalOf_identity e a ha
    omega

theorem c8_witness :
    noAttrW.attr = none ∧ entSkip.attr = some (attrW 1 .directory 77 5 0) ∧
    initState.total = 0 ∧ initState.current = 0 ∧
    (collectEntry entSkip initState).2 = none ∧
    (collectChildren 7 ([] ++ ([97], noAttrW) :: [([98], fileW 5 0)]) statePre =
        collectChildren 7 ([] ++ [([98], fileW 5 0)]) statePre ∧
      skippedChildren ([] ++ ([97], noAttrW) :: [([98], fileW 5 0)]) =
        skippedChildren ([] ++ [([98], fileW 5 0)]) + 1 ∧
      ((collectEntry entSkip initState).1).total + 1 =
        ((collectEntry entSkip initState).1).current + skippedOf entSkip) :=
  ⟨rfl, rfl, rfl, rfl, rfl,
    c8_attrless_child_skipped 7 [] [([98], fileW 5 0)] [97] noAttrW statePre rfl entSkip
      (attrW 1 .directory 77 5 0) rfl initState rfl rfl rfl⟩

theorem withParents_withParents (e : DumpedEntry) (p q : List Ino) :
    (e.withParents p).withParents q = e.withParents q := by
  cases e; rfl

theorem ofold_nil (m : Option DumpedEntry) : ofold m [] = m := by
  cases m <;> rfl

theorem ofold_append (m : Option DumpedEntry) (l1 l2 : List DumpedEntry) :
    ofold m (l1 ++ l2) = ofold (ofold m l1) l2 := by
  cases m with
  | some r => simp [ofold, List.foldl_append]
  | none =>
    cases l1 with
    | nil => simp [ofold]
    | cons o os => simp [ofold, mergeFold, List.foldl_append]

theorem mergeStep_eq (ex o : DumpedEntry) (ea oa : DumpedAttr)
    (hex : ex.attr = some ea) (ho : o.attr = some oa) :
    mergeStep ex o =
      if ctimeKey ea < ctimeKey oa then
        (o.withAttr { oa with nlink := ea.nlink + 1 }).withParents (ex.parents ++ o.parents)
      else (ex.withAttr { ea with nlink := ea.nlink + 1 }).withParents (ex.parents ++ o.parents) := by
  simp only [mergeStep, hex, ho]
  split
  · simp
  · simp

theorem foldl_mergeStep_spec (os : List DumpedEntry) :
    ∀ (b : DumpedEntry) (ba : DumpedAttr), b.attr = some ba → ∀ (n : Nat) (P : List Ino),
      (∀ o ∈ os, (o.attr).isSome) →
      ∃ wa, (bestOcc b os).attr = some wa ∧
        os.foldl mergeStep ((b.withAttr { ba with nlink := n }).withParents P) =
          ((bestOcc b os).withAttr { wa with nlink := n + os.length }).withParents
            (P ++ (os.map DumpedEntry.parents).flatten) := by
  induction os with
  | nil =>
    intro b ba hb n P _
    refine ⟨ba, by simp [bestOcc, hb], ?_⟩
    simp [bestOcc]
  | cons o os' ih =>
    intro b ba hb n P hos
    obtain ⟨oa, hoa⟩ : ∃ oa, o.attr = some oa := by
      have hsome := hos o (List.mem_cons_self o os')
      cases h : o.attr with
      | none => rw [h] at hsome; cases hsome
      | some x => exact ⟨x, rfl⟩
    have hkb : keyOf b = ctimeKey ba := by simp [keyOf, hb]
    have hko : keyOf o = ctimeKey oa := by simp [keyOf, hoa]
    have hkey : ctimeKey { ba with nlink := n } = ctimeKey ba := rfl
    have hstep := mergeStep_eq ((b.withAttr { ba with nlink := n }).withParents P) o
      { ba with nlink := n } oa (by simp) hoa
    rw [List.foldl_cons, hstep]
    have hbp : ((b.withAttr { ba with nlink := n }).withParents P).parents = P := by simp
    rw [hbp]
    by_cases hlt : ctimeKey { ba with nlink := n } < ctimeKey oa
    · rw [if_pos hlt]
      have hlt2 : keyOf b < keyOf o := by
        rw [hkb, hko, ← hkey]
        exact hlt
      have hbest : bestOcc b (o :: os') = bestOcc o os' := by
        simp only [bestOcc, List.foldl_cons, if_pos hlt2]
      obtain ⟨wa, hwa, hfold⟩ := ih o oa hoa (n + 1) (P ++ o.parents)
        (fun x hx => hos x (List.mem_cons_of_mem _ hx))
      refine ⟨wa, by rw [hbest]; exact hwa, ?_⟩
      rw [hbest]
      have hnl : { ba with nlink := n }.nlink + 1 = n + 1 := rfl
      have harith : n + (o :: os').length = n + 1 + os'.length := by
        simp [List.length_cons]
        omega
      rw [harith]
      have hflat : P ++ ((o :: os').map DumpedEntry.parents).flatten =
          (P ++ o.parents) ++ (os'.map DumpedEntry.parents).flatten := by
        simp [List.append_assoc]
      rw [hflat]
      have hfold' : os'.foldl mergeStep
          ((o.withAttr { oa with nlink := { ba with nlink := n }.nlink + 1 }).withParents
            (P ++ o.parents)) =
          ((bestOcc o os').withAttr { wa with nlink := n + 1 + os'.length }).withParents
            ((P ++ o.parents) ++ (os'.map DumpedEntry.parents).flatten) := hfold
      exact hfold'
    · rw [if_neg hlt]
      have hge2 : ¬ keyOf b < keyOf o := by
        rw [hkb, hko, ← hkey]
        exact hlt
      have hbest : bestOcc b (o :: os') = bestOcc b os' := by
        simp only [bestOcc, List.foldl_cons, if_neg hge2]
      obtain ⟨wa, hwa, hfold⟩ := ih b ba hb (n + 1) (P ++ o.parents)
        (fun x hx => hos x (List.mem_cons_of_mem _ hx))
      refine ⟨wa, by rw [hbest]; exact hwa, ?_⟩
      rw [hbest]
      have hacc : (((b.withAttr { ba with nlink := n }).withParents P).withAttr
            { { ba with nlink := n } with nlink := { ba with nlink := n }.nlink + 1 }).withParents
            (P ++ o.parents) =
          (b.withAttr { ba with nlink := n + 1 }).withParents (P ++ o.parents) := by
        rw [withParents_withAttr, withParents_withParents, withAttr_withAttr]
      rw [hacc]
      have harith : n + (o :: os').length = n + 1 + os'.length := by
        simp [List.length_cons]
        omega
      rw [harith]
      have hflat : P ++ ((o :: os').map DumpedEntry.parents).flatten =
          (P ++ o.parents) ++ (os'.map DumpedEntry.parents).flatten := by
        simp [List.append_assoc]
      rw [hflat]
      exact hfold

theorem bestOcc_firstMax (os : List DumpedEntry) :
    ∀ b, ∃ k, isFirstMax (b :: os) k (bestOcc b os) := by
  induction os with
  | nil =>
    intro b
    refine ⟨0, by simp [bestOcc], ?_, ?_⟩
    · intro x hx
      rw [List.mem_singleton] at hx
      rw [hx]
      simp [bestOcc]
    · intro j hj x hx
      omega
  | cons o os' ih =>
    intro b
    by_cases hlt : keyOf b < keyOf o
    · obtain ⟨k, h1, h2, h3⟩ := ih o
      have hbb : bestOcc b (o :: os') = bestOcc o os' := by
        simp only [bestOcc, List.foldl_cons, if_pos hlt]
      rw [hbb]
      refine ⟨k + 1, ?_, ?_, ?_⟩
      · simpa using h1
      · intro x hx
        rcases List.mem_cons.mp hx with hxb | hxo
        · rw [hxb]
          have how : keyOf o ≤ keyOf (bestOcc o os') := h2 o (List.mem_cons_self _ _)
          exact le_of_lt (lt_of_lt_of_le hlt how)
        · exact h2 x hxo
      · intro j hj x hx
        cases j with
        | zero =>
          have hxb : x = b := by simpa using hx.symm
          rw [hxb]
          have how : keyOf o ≤ keyOf (bestOcc o os') := h2 o (List.mem_cons_self _ _)
          exact lt_of_lt_of_le hlt how
        | succ j' =>
          exact h3 j' (by omega) x (by simpa using hx)
    · obtain ⟨k, h1, h2, h3⟩ := ih b
      have hbb : bestOcc b (o :: os') = bestOcc b os' := by
        simp only [bestOcc, List.foldl_cons, if_neg hlt]
      rw [hbb]
      have hob : keyOf o ≤ keyOf b := le_of_not_lt hlt
      have hbw : keyOf b ≤ keyOf (bestOcc b os') := h2 b (List.mem_cons_self _ _)
      cases k with
      | zero =>
        refine ⟨0, ?_, ?_, ?_⟩
        · simpa using h1
        · intro x hx
          rcases List.mem_cons.mp hx with hxb | hxo
          · rw [hxb]
            exact hbw
          · rcases List.mem_cons.mp hxo with hxo1 | hxo2
            · rw [hxo1]
              exact le_trans hob hbw
            · exact h2 x (List.mem_cons_of_mem _ hxo2)
        · intro j hj x hx
          omega
      | succ k' =>
        refine ⟨k' + 2, ?_, ?_, ?_⟩
        · have : (b :: os')[k' + 1]? = some (bestOcc b os') := h1
          simpa using this
        · intro x hx
          rcases List.mem_cons.mp hx with hxb | hxo
          · rw [hxb]
            exact hbw
          · rcases List.mem_cons.mp hxo with hxo1 | hxo2
            · rw [hxo1]
              exact le_trans hob hbw
            · exact h2 x (List.mem_cons_of_mem _ hxo2)
        · intro j hj x hx
          have hbstrict : keyOf b < keyOf (bestOcc b os') := by
            have hb0 : (b :: os')[0]? = some b := by simp
            exact h3 0 (by omega) b hb0
          cases j with
          | zero =>
            have hxb : x = b := by simpa using hx.symm
            rw [hxb]
            exact hbstrict
          | succ j' =>
            cases j' with
            | zero =>
              have hxo : x = o := by simpa using hx.symm
              rw [hxo]
              exact lt_of_le_of_lt hob hbstrict
            | succ j2 =>
              have hx' : (b :: os')[j2 + 1]? = some x := by simpa using hx
              exact h3 (j2 + 1) (by omega) x hx'

theorem updEntries_at (m : Ino → Option DumpedEntry) (j : Ino) (v : DumpedEntry) (i : Ino)
    (h : i = j) : updEntries m j v i = some v := by
  subst h
  exact updEntries_self m i v

mutual
theorem collectVisit_ofold (nm : GoStr) (ps : List Ino) (e : DumpedEntry) (st : CState)
    (hsucc : (collectVisit nm ps e st).2 = none) (i : Ino)
    (hocc : ∀ o ∈ occEntries nm ps e, isOccOf i o = true → isFileOcc o = true) :
    ((collectVisit nm ps e st).1).entries i =
      ofold (st.entries i) ((occEntries nm ps e).filter (isOccOf i)) := by
  match e with
  | .mk nm0 ps0 none sy xa ch es => cases hsucc
  | .mk nm0 ps0 (some a0) sy xa ch es =>
    simp only [collectVisit] at hsucc ⊢
    simp only [occEntries] at hocc ⊢
    cases hx : st.entries a0.inode with
    | some exist =>
      simp only [hx] at hsucc ⊢
      cases hea : exist.attr with
      | none =>
        simp only [hea] at hsucc
        cases hsucc
      | some ea =>
        simp only [hea] at hsucc ⊢
        by_cases hcond : a0.typ ≠ FType.file ∨ ea.typ ≠ FType.file
        · rw [if_pos hcond] at hsucc
          cases hsucc
        · rw [if_neg hcond] at hsucc ⊢
          push_neg at hcond
          obtain ⟨hft, _⟩ := hcond
          have hoccList : (if a0.typ = FType.directory then occChildren a0.inode es else []) =
              [] := by
            rw [if_neg]
            rw [hft]
            simp
          rw [hoccList]
          by_cases hii : a0.inode = i
          · have hsti : st.entries i = some exist := by
              rw [← hii]
              exact hx
            have hfl : List.filter (isOccOf i)
                [DumpedEntry.mk nm ps (some a0) sy xa ch es] =
                [DumpedEntry.mk nm ps (some a0) sy xa ch es] := by
              simp [isOccOf, DumpedEntry.attr, hii]
            rw [hfl, hsti]
            have hms := mergeStep_eq exist (DumpedEntry.mk nm ps (some a0) sy xa ch es) ea a0
              hea rfl
            have hofr : ofold (some exist) [DumpedEntry.mk nm ps (some a0) sy xa ch es] =
                some (mergeStep exist (DumpedEntry.mk nm ps (some a0) sy xa ch es)) := rfl
            rw [hofr, hms]
            by_cases hct : ctimeKey ea < ctimeKey a0
            · rw [if_pos hct, if_pos hct]
              show updEntries _ a0.inode _ i = _
              rw [updEntries_at _ _ _ _ hii.symm]
              simp only [parents_withParents]
              simp [DumpedEntry.parents]
            · rw [if_neg hct, if_neg hct]
              show updEntries _ a0.inode _ i = _
              rw [updEntries_at _ _ _ _ hii.symm]
              simp [DumpedEntry.parents]
          · have hii2 : i ≠ a0.inode := fun h => hii h.symm
            have hfl : List.filter (isOccOf i)
                [DumpedEntry.mk nm ps (some a0) sy xa ch es] = [] := by
              simp [isOccOf, DumpedEntry.attr, hii]
            rw [hfl, ofold_nil]
            by_cases hct : ctimeKey ea < ctimeKey a0
            · rw [if_pos hct]
              show updEntries _ a0.inode _ i = _
              rw [updEntries_ne _ _ _ _ hii2]
              show updEntries _ a0.inode _ i = _
              rw [updEntries_ne _ _ _ _ hii2]
            · rw [if_neg hct]
              show updEntries _ a0.inode _ i = _
              rw [updEntries_ne _ _ _ _ hii2]
    | none =>
      simp only [hx] at hsucc ⊢
      by_cases hfile : a0.typ = FType.file
      · rw [if_pos hfile] at hsucc ⊢
        have hoccList : (if a0.typ = FType.directory then occChildren a0.inode es else []) =
            [] := by
          rw [if_neg]
          rw [hfile]
          simp
        rw [hoccList]
        by_cases hii : a0.inode = i
        · have hsti : st.entries i = none := by
            rw [← hii]
            exact hx
          have hfl : List.filter (isOccOf i)
              [DumpedEntry.mk nm ps (some a0) sy xa ch es] =
              [DumpedEntry.mk nm ps (some a0) sy xa ch es] := by
            simp [isOccOf, DumpedEntry.attr, hii]
          rw [hfl, hsti]
          show updEntries _ a0.inode _ i = _
          rw [updEntries_at _ _ _ _ hii.symm]
          rfl
        · have hii2 : i ≠ a0.inode := fun h => hii h.symm
          have hfl : List.filter (isOccOf i)
              [DumpedEntry.mk nm ps (some a0) sy xa ch es] = [] := by
            simp [isOccOf, DumpedEntry.attr, hii]
          rw [hfl, ofold_nil]
          show updEntries _ a0.inode _ i = _
          rw [updEntries_ne _ _ _ _ hii2]
          show updEntries _ a0.inode _ i = _
          rw [updEntries_ne _ _ _ _ hii2]
      · rw [if_neg hfile] at hsucc ⊢
        by_cases hdir : a0.typ = FType.directory
        · rw [if_pos hdir] at hsucc ⊢
          rw [if_pos hdir] at hocc
          rw [show (if a0.typ = FType.directory then occChildren a0.inode es else []) =
            occChildren a0.inode es from if_pos hdir]
          by_cases hii : a0.inode = i
          · exfalso
            have hfo := hocc (DumpedEntry.mk nm ps (some a0) sy xa ch es)
              (List.mem_cons_self _ _)
              (by simp [isOccOf, DumpedEntry.attr, hii])
            simp [isFileOcc, DumpedEntry.attr] at hfo
            exact hfile hfo
          · have hii2 : i ≠ a0.inode := fun h => hii h.symm
            have hhead : isOccOf i (DumpedEntry.mk nm ps (some a0) sy xa ch es) = false := by
              simp [isOccOf, DumpedEntry.attr, hii]
            have hch := collectChildren_ofold a0.inode es _ hsucc i hii2
              (fun o ho hoi => hocc o (List.mem_cons_of_mem _ ho) hoi)
            rw [hch]
            have hst3 : ({ st with
                entries := updEntries
                  (updEntries ({ st with
                    total := st.total + (if a0.typ = FType.directory then es.length else 0),
                    current := st.current + 1 } : CState).entries a0.inode
                    (DumpedEntry.mk nm ps (some a0) sy xa ch es)) a0.inode
                  ((if a0.inode = 1 ∨ a0.inode = TrashInode then
                      (DumpedEntry.mk nm ps (some a0) sy xa ch es).withParents [1]
                    else DumpedEntry.mk nm ps (some a0) sy xa ch es).withAttr
                    { a0 with nlink := 2 }),
                total := st.total + (if a0.typ = FType.directory then es.length else 0),
                current := st.current + 1 } : CState).entries i = st.entries i := by
              show updEntries _ a0.inode _ i = _
              rw [updEntries_ne _ _ _ _ hii2]
              show updEntries _ a0.inode _ i = _
              rw [updEntries_ne _ _ _ _ hii2]
            rw [hst3]
            simp only [List.filter_cons, hhead]
            rfl
        · rw [if_neg hdir] at hsucc ⊢
          rw [show (if a0.typ = FType.directory then occChildren a0.inode es else []) =
            ([] : List DumpedEntry) from if_neg hdir] at hocc ⊢
          by_cases hnl : a0.nlink ≠ 1
          · rw [if_pos hnl] at hsucc
            cases hsucc
          · rw [if_neg hnl] at hsucc ⊢
            by_cases hii : a0.inode = i
            · exfalso
              have hfo := hocc (DumpedEntry.mk nm ps (some a0) sy xa ch es)
                (List.mem_cons_self _ _)
                (by simp [isOccOf, DumpedEntry.attr, hii])
              simp [isFileOcc, DumpedEntry.attr] at hfo
              exact hfile hfo
            · have hii2 : i ≠ a0.inode := fun h => hii h.symm
              have hfl : List.filter (isOccOf i)
                  [DumpedEntry.mk nm ps (some a0) sy xa ch es] = [] := by
                simp [isOccOf, DumpedEntry.attr, hii]
              rw [hfl, ofold_nil]
              show updEntries _ a0.inode _ i = _
              rw [updEntries_ne _ _ _ _ hii2]

theorem collectChildren_ofold (i0 : Ino) (cs : List (GoStr × DumpedEntry)) (st : CState)
    (hsucc : (collectChildren i0 cs st).2 = none) (i : Ino) (hne : i ≠ i0)
    (hocc : ∀ o ∈ occChildren i0 cs, isOccOf i o = true → isFileOcc o = true) :
    ((collectChildren i0 cs st).1).entries i =
      ofold (st.entries i) ((occChildren i0 cs).filter (isOccOf i)) := by
  match cs with
  | [] =>
    rw [show occChildren i0 ([] : List (GoStr × DumpedEntry)) = [] from rfl]
    rw [show List.filter (isOccOf i) ([] : List DumpedEntry) = [] from rfl]
    rw [ofold_nil]
    rfl
  | (cname, child) :: rest =>
    simp only [collectChildren] at hsucc ⊢
    simp only [occChildren] at hocc ⊢
    cases hca : child.attr with
    | none =>
      simp only [hca] at hsucc hocc ⊢
      simp only [List.nil_append] at hocc ⊢
      exact collectChildren_ofold i0 rest st hsucc i hne hocc
    | some ca =>
      simp only [hca] at hsucc hocc ⊢
      cases hcv : collectVisit cname [i0] child
          { st with entries := if ca.typ = .directory then bumpDirNlink st.entries i0 else st.entries } with
      | mk st2 r =>
        simp only [hcv] at hsucc ⊢
        cases r with
        | some err => cases hsucc
        | none =>
          have hst1 : ({ st with entries := if ca.typ = .directory then bumpDirNlink st.entries i0
              else st.entries } : CState).entries i = st.entries i := by
            show (if ca.typ = .directory then bumpDirNlink st.entries i0 else st.entries) i = _
            split
            · exact bumpDirNlink_ne _ _ _ hne
            · rfl
          have h1 := collectVisit_ofold cname [i0] child
            { st with entries := if ca.typ = .directory then bumpDirNlink st.entries i0
                else st.entries }
            (by rw [hcv]) i
            (fun o ho hoi => hocc o (List.mem_append_left _ ho) hoi)
          rw [hcv] at h1
          have h1' : st2.entries i =
              ofold (({ st with entries := if ca.typ = .directory then bumpDirNlink st.entries i0
                else st.entries } : CState).entries i)
                ((occEntries cname [i0] child).filter (isOccOf i)) := h1
          rw [hst1] at h1'
          have h2 := collectChildren_ofold i0 rest st2 hsucc i hne
            (fun o ho hoi => hocc o (List.mem_append_right _ ho) hoi)
          rw [h2, h1', List.filter_append, ofold_append]
end

theorem withParents_own (v : DumpedEntry) : v.withParents v.parents = v := by
  cases v; rfl

/-- Claim C2 (hardlink merge law): when every tree occurrence of inode `i`
is a regular file, there are at least two of them, and `collectEntry`
succeeds from an empty table, the canonical record for `i` carries link
count equal to the number of occurrences, parent list equal to the
concatenation of the occurrences' parent lists in visit order, and the
attribute of the first occurrence attaining the maximal
`ctime*1e9+ctimensec` key (ties keep the earlier-inserted occurrence),
with only its link count overridden. -/
theorem c2_hardlink_merge (e : DumpedEntry) (st : CState)
    (hinit : ∀ j, st.entries j = none)
    (hsucc : (collectEntry e st).2 = none)
    (i : Ino)
    (hocc : ∀ o ∈ occEntries e.name e.parents e, isOccOf i o = true → isFileOcc o = true)
    (hcount : 2 ≤ (occsOf i e).length) :
    ∃ v, ((collectEntry e st).1).entries i = some v ∧
      v.parents = ((occsOf i e).map DumpedEntry.parents).flatten ∧
      ∃ k w wa, isFirstMax (occsOf i e) k w ∧ w.attr = some wa ∧
        v.attr = some { wa with nlink := (occsOf i e).length } := by
  simp only [collectEntry] at hsucc ⊢
  have hof := collectVisit_ofold e.name e.parents e st hsucc i hocc
  have hoccs : (occEntries e.name e.parents e).filter (isOccOf i) = occsOf i e := rfl
  rw [hinit i, hoccs] at hof
  cases hl : occsOf i e with
  | nil =>
    rw [hl] at hcount
    simp at hcount
  | cons o os =>
    rw [hl] at hof
    have hofv : ofold none (o :: os) = some (mergeFold o os) := rfl
    rw [hofv] at hof
    have hoi : isOccOf i o = true := by
      have hm : o ∈ List.filter (isOccOf i) (occEntries e.name e.parents e) := by
        show o ∈ occsOf i e
        rw [hl]
        exact List.mem_cons_self _ _
      exact List.of_mem_filter hm
    obtain ⟨oa, hoa⟩ : ∃ oa, o.attr = some oa := by
      cases h : o.attr with
      | none => simp [isOccOf, h] at hoi
      | some x => exact ⟨x, rfl⟩
    have hos : ∀ x ∈ os, (x.attr).isSome := by
      intro x hx
      have hxi : isOccOf i x = true := by
        have hm : x ∈ List.filter (isOccOf i) (occEntries e.name e.parents e) := by
          show x ∈ occsOf i e
          rw [hl]
          exact List.mem_cons_of_mem _ hx
        exact List.of_mem_filter hm
      cases h : x.attr with
      | none => simp [isOccOf, h] at hxi
      | some y => rfl
    have hmi : (o.withAttr { oa with nlink := 1 }).withParents o.parents = mergeInit o := by
      rw [show o.parents = (o.withAttr { oa with nlink := 1 }).parents from
        (parents_withAttr o _).symm, withParents_own]
      simp [mergeInit, hoa]
    obtain ⟨wa, hwa, hfold⟩ := foldl_mergeStep_spec os o oa hoa 1 o.parents hos
    rw [hmi] at hfold
    have hvrec : ((collectVisit e.name e.parents e st).1).entries i =
        some (((bestOcc o os).withAttr { wa with nlink := 1 + os.length }).withParents
          (o.parents ++ (os.map DumpedEntry.parents).flatten)) := by
      rw [hof]
      congr 1
    refine ⟨_, hvrec, ?_, ?_⟩
    · simp [parents_withParents]
    · obtain ⟨k, hkfm⟩ := bestOcc_firstMax os o
      refine ⟨k, bestOcc o os, wa, hkfm, hwa, ?_⟩
      rw [show (o :: os).length = 1 + os.length from by simp [List.length_cons]; omega]
      simp [attr_withParents, attr_withAttr]

theorem c2_witness :
    (collectEntry entHardlinks initState).2 = none ∧
    (occsOf 5 entHardlinks).length = 2 ∧
    ((collectEntry entHardlinks initState).1).entries 5 =
      some (DumpedEntry.mk [121] [1, 1] (some (attrW 5 .file 2 200 0)) [] [] [] []) ∧
    (∃ v, ((collectEntry entHardlinks initState).1).entries 5 = some v ∧
      v.parents = ((occsOf 5 entHardlinks).map DumpedEntry.parents).flatten ∧
      ∃ k w wa, isFirstMax (occsOf 5 entHardlinks) k w ∧ w.attr = some wa ∧
        v.attr = some { wa with nlink := (occsOf 5 entHardlinks).length }) :=
  ⟨rfl, rfl, rfl,
    c2_hardlink_merge entHardlinks initState (fun _ => rfl) rfl 5 (by decide) (by decide)⟩
